import Mathlib

/-!
# The omapdrm CRTC apply pipeline

A shallow embedding of the apply/commit scheduler of
`drivers/gpu/drm/omapdrm/omap_crtc.c`: `omap_crtc_apply` (submit),
`apply_worker` (the deferred worker) and `omap_crtc_apply_irq` (the
commit-completion interrupt handler).

Every function of the driver is a pure function on the `omap_crtc` record.
Calls that leave the driver (callbacks, `queue_work`, irq registration,
`dispc_mgr_go`, the runtime-pm reference) are appended to the `trace` field
in program order; a call that the code orders against the write of a flag is
recorded with the value the flag has at the call.  What the hardware answers
(`dispc_mgr_is_enabled`,
`dispc_mgr_go_busy`) is an argument of the function that asks.  Each function
runs atomically: `apply_worker` and the callers of `omap_crtc_apply` hold
`crtc->mutex`, and the interrupt handler only touches `go_bit_set`.
-/

namespace OmapCrtc

/-- Identity of one `struct omap_drm_apply` object (its address). -/
abbrev Req := Nat

/-- Calls made by the driver to its collaborators, in program order.  The
calls that the code orders against a write of a flag carry the value the flag
has when the call is made: `go_bit_set` for `queue_work` and
`__omap_irq_unregister`, `ignore_digit_sync_lost` for `dispc_mgr_enable` and
`omap_irq_wait`. -/
inductive Event where
  | pre_apply (apply : Req)
  | post_apply (apply : Req)
  | queue_work (go_bit_set : Bool)
  | omap_irq_register
  | omap_irq_unregister (go_bit_set : Bool)
  | dispc_mgr_go
  | dispc_runtime_get
  | dispc_runtime_put
  | dispc_mgr_enable (channel : Nat) (enable : Bool) (ignore_digit_sync_lost : Bool)
  | omap_irq_wait_init (irqmask count : Nat)
  | omap_irq_wait (irqmask count msecs : Nat) (ignore_digit_sync_lost : Bool)
  | dev_err_timeout (enable : Bool)
  | flush_workqueue
  | schedule_timeout_uninterruptible (msecs : Nat)
  | dev_err_flush_timeout
  deriving DecidableEq

/-- The fields of `struct omap_drm_apply` the scheduler uses.  The two list
nodes `pending_node` and `queued_node` are the positions of the object in
`pending_applies` and `queued_applies`; the callbacks act on the caller's
context `W`. -/
structure omap_drm_apply (W : Type) where
  queued : Bool
  pre_apply : W → W
  post_apply : W → W

/-- The fields of `struct omap_crtc` read or written by the apply pipeline,
with the request objects (`applies`), the pending bit of `apply_work`, the
`registered` bit of `apply_irq`, the callbacks' context and the call trace.
The pointers `event` and `old_fb` are `none` when they are `NULL`. -/
structure omap_crtc (W : Type) where
  channel : Nat
  enabled : Bool
  full_update : Bool
  go_bit_set : Bool
  pending_applies : List Req
  queued_applies : List Req
  ignore_digit_sync_lost : Bool
  applies : Req → omap_drm_apply W
  apply_irq_registered : Bool
  apply_work_pending : Bool
  event : Option Nat
  old_fb : Option Nat
  world : W
  trace : List Event

variable {W : Type}

/-- Assignment `apply->queued = v`. -/
def set_queued (applies : Req → omap_drm_apply W) (apply : Req) (v : Bool) :
    Req → omap_drm_apply W :=
  fun r => if r = apply then { applies r with queued := v } else applies r

/-- Call `queue_work(priv->wq, &omap_crtc->apply_work)`, recorded with the
value of `go_bit_set` at the call. -/
def queue_work (s : omap_crtc W) : omap_crtc W :=
  { s with apply_work_pending := true,
           trace := s.trace ++ [Event.queue_work s.go_bit_set] }

/-- Call `omap_irq_register(dev, &omap_crtc->apply_irq)`. -/
def omap_irq_register (s : omap_crtc W) : omap_crtc W :=
  { s with apply_irq_registered := true,
           trace := s.trace ++ [Event.omap_irq_register] }

/-- Call `__omap_irq_unregister(crtc->dev, &omap_crtc->apply_irq)`, recorded
with the value of `go_bit_set` at the call. -/
def omap_irq_unregister (s : omap_crtc W) : omap_crtc W :=
  { s with apply_irq_registered := false,
           trace := s.trace ++ [Event.omap_irq_unregister s.go_bit_set] }

/-- Call `dispc_mgr_go(channel)`. -/
def dispc_mgr_go (s : omap_crtc W) : omap_crtc W :=
  { s with trace := s.trace ++ [Event.dispc_mgr_go] }

/-- Call `dispc_runtime_get()`. -/
def dispc_runtime_get (s : omap_crtc W) : omap_crtc W :=
  { s with trace := s.trace ++ [Event.dispc_runtime_get] }

/-- Call `dispc_runtime_put()`. -/
def dispc_runtime_put (s : omap_crtc W) : omap_crtc W :=
  { s with trace := s.trace ++ [Event.dispc_runtime_put] }

/-- The function `omap_crtc_apply` (lines 612-637): the returned pair is the
`int` result and the state after the call.  `WARN_ON(!mutex_is_locked(..))`
only prints. -/
def omap_crtc_apply (s : omap_crtc W) (apply : Req) : Int × omap_crtc W :=
  if (s.applies apply).queued then
    (0, s)
  else
    let s1 := { s with applies := set_queued s.applies apply true }
    let s2 := { s1 with queued_applies := s1.queued_applies ++ [apply] }
    if s2.pending_applies.isEmpty then
      (0, queue_work s2)
    else
      (0, s2)

/-- The function `omap_crtc_apply_irq` (lines 525-543); `go_busy` is what
`dispc_mgr_go_busy(omap_crtc->channel)` answers. -/
def omap_crtc_apply_irq (go_busy : Bool) (s : omap_crtc W) : omap_crtc W :=
  if s.go_bit_set && !go_busy then
    let s1 := omap_irq_unregister s
    let s2 := { s1 with go_bit_set := false }
    queue_work s2
  else
    s

/-- First loop of `apply_worker` (lines 572-576) over the entries that are left
in `pending_applies`: `post_apply`, then `list_del` of the head entry. -/
def finish_pending : List Req → omap_crtc W → omap_crtc W
  | [], s => s
  | apply :: n, s =>
    finish_pending n
      { s with world := (s.applies apply).post_apply s.world,
               trace := s.trace ++ [Event.post_apply apply],
               pending_applies := n }

/-- Second loop of `apply_worker` (lines 581-588) over the entries that are
left in `queued_applies`: `pre_apply`, `list_del`, `queued = false`,
`list_add_tail` to `pending_applies`. -/
def handle_queued : List Req → omap_crtc W → omap_crtc W
  | [], s => s
  | apply :: n, s =>
    handle_queued n
      { s with world := (s.applies apply).pre_apply s.world,
               trace := s.trace ++ [Event.pre_apply apply],
               queued_applies := n,
               applies := set_queued s.applies apply false,
               pending_applies := s.pending_applies ++ [apply] }

/-- The function `apply_worker` (lines 545-610); `is_enabled` is what
`dispc_mgr_is_enabled(channel)` answers. -/
def apply_worker (is_enabled : Bool) (s : omap_crtc W) : omap_crtc W :=
  let s0 := dispc_runtime_get s
  if s0.go_bit_set then
    dispc_runtime_put s0
  else
    let s1 := finish_pending s0.pending_applies s0
    let need_apply := !s1.queued_applies.isEmpty
    let s2 := handle_queued s1.queued_applies s1
    let s3 :=
      if need_apply then
        if is_enabled then
          let s3a := omap_irq_register s2
          let s3b := dispc_mgr_go s3a
          { s3b with go_bit_set := true }
        else
          queue_work s2
      else
        s2
    dispc_runtime_put s3

/-- One atomic step of the pipeline on one crtc. -/
inductive Step where
  | submit (apply : Req)
  | worker (is_enabled : Bool)
  | irq (go_busy : Bool)
  deriving DecidableEq

/-- Effect of one step.  The workqueue clears the pending bit of `apply_work`
before it calls `apply_worker`. -/
def step (s : omap_crtc W) : Step → omap_crtc W
  | Step.submit apply => (omap_crtc_apply s apply).2
  | Step.worker is_enabled => apply_worker is_enabled { s with apply_work_pending := false }
  | Step.irq go_busy => omap_crtc_apply_irq go_busy s

/-- Effect of a sequence of steps. -/
def run (s : omap_crtc W) (steps : List Step) : omap_crtc W :=
  steps.foldl step s

/-- A request whose `pre_apply` increments the first counter and whose
`post_apply` increments the second. -/
def counting_apply : omap_drm_apply (Nat × Nat) where
  queued := false
  pre_apply := fun w => (w.1 + 1, w.2)
  post_apply := fun w => (w.1, w.2 + 1)

/-- An idle crtc as `omap_crtc_init` leaves it: both lists empty, every flag
clear, nothing scheduled. -/
def idle_crtc : omap_crtc (Nat × Nat) where
  channel := 0
  enabled := false
  full_update := false
  go_bit_set := false
  pending_applies := []
  queued_applies := []
  ignore_digit_sync_lost := false
  applies := fun _ => counting_apply
  apply_irq_registered := false
  apply_work_pending := false
  event := none
  old_fb := none
  world := (0, 0)
  trace := []

/-- The calls made by one step taken in state `s`: what the step appends to
the trace. -/
def emitted (s : omap_crtc W) (st : Step) : List Event :=
  (step s st).trace.drop s.trace.length

/-- Every occurrence of `y` in `l` comes after an occurrence of `x`. -/
def Precedes {α : Type} (x y : α) (l : List α) : Prop :=
  ∀ a b, l = a ++ y :: b → x ∈ a

/-- The `queued` flag of a request is set exactly when the request is on
`queued_applies`, and neither list holds a request twice. -/
def Consistent (s : omap_crtc W) : Prop :=
  (∀ r, r ∈ s.queued_applies ↔ (s.applies r).queued = true) ∧
  s.queued_applies.Nodup ∧ s.pending_applies.Nodup

/-- Where request `A` stands after its submission, `ev` being the calls made
since the pipe was idle: still queued with nothing in flight, in flight for
the first time, or finished. -/
def Phase (A B : Req) (s : omap_crtc W) (ev : List Event) : Prop :=
  (s.go_bit_set = false ∧ s.pending_applies = [] ∧ A ∈ s.queued_applies ∧
    Precedes A B s.queued_applies ∧
    Event.pre_apply B ∉ ev ∧ Event.post_apply B ∉ ev) ∨
  (Event.pre_apply A ∈ ev ∧ Event.post_apply B ∉ ev ∧ A ∈ s.pending_applies ∧
    Precedes A B s.pending_applies) ∨
  (Event.pre_apply A ∈ ev ∧ Event.post_apply A ∈ ev)

/-- The calls `ev` made since trace `t0` keep the callbacks of `A` ahead of
those of `B`. -/
def FifoInv (t0 : List Event) (A B : Req) (s : omap_crtc W) : Prop :=
  ∃ ev, s.trace = t0 ++ ev ∧
    Precedes (Event.pre_apply A) (Event.pre_apply B) ev ∧
    Precedes (Event.post_apply A) (Event.post_apply B) ev ∧
    Phase A B s ev

/-- The requests whose `post_apply` is called in `ev`, in call order. -/
def post_applied : List Event → List Req
  | [] => []
  | Event.post_apply r :: l => r :: post_applied l
  | _ :: l => post_applied l

/-- The callback calls of `ev`, in call order. -/
def callbacks : List Event → List Event
  | [] => []
  | Event.pre_apply r :: l => Event.pre_apply r :: callbacks l
  | Event.post_apply r :: l => Event.post_apply r :: callbacks l
  | _ :: l => callbacks l

/-- What `set_enabled` reads outside `struct omap_crtc`: the two enum
constants of `omapdss.h`, `omap_crtc->mgr->output->output_type`, the answers
of `dispc_mgr_is_enabled`, `dispc_mgr_get_framedone_irq` and
`dispc_mgr_get_vsync_irq` for the channel, and the result of `omap_irq_wait`
(non-zero on timeout). -/
structure set_enabled_env where
  OMAP_DISPLAY_TYPE_HDMI : Nat
  OMAP_DSS_CHANNEL_DIGIT : Nat
  output_type : Nat
  is_enabled : Bool
  framedone_irq : Nat
  vsync_irq : Nat
  wait_ret : Int

/-- Call `dispc_mgr_enable(channel, enable)`, recorded with the value of
`ignore_digit_sync_lost` at the call. -/
def dispc_mgr_enable (channel : Nat) (enable : Bool) (s : omap_crtc W) : omap_crtc W :=
  { s with trace := s.trace
      ++ [Event.dispc_mgr_enable channel enable s.ignore_digit_sync_lost] }

/-- Call `omap_irq_wait_init(dev, irqmask, count)`; the wait it returns is
named by its mask and count. -/
def omap_irq_wait_init (irqmask count : Nat) (s : omap_crtc W) :
    (Nat × Nat) × omap_crtc W :=
  ((irqmask, count), { s with trace := s.trace ++ [Event.omap_irq_wait_init irqmask count] })

/-- Call `omap_irq_wait(dev, wait, msecs_to_jiffies(msecs))`, recorded with
the value of `ignore_digit_sync_lost` when the wait starts. -/
def omap_irq_wait (wait : Nat × Nat) (msecs : Nat) (s : omap_crtc W) : omap_crtc W :=
  { s with trace := s.trace
      ++ [Event.omap_irq_wait wait.1 wait.2 msecs s.ignore_digit_sync_lost] }

/-- Call `dev_err` with the message of a wait that timed out. -/
def dev_err_timeout (enable : Bool) (s : omap_crtc W) : omap_crtc W :=
  { s with trace := s.trace ++ [Event.dev_err_timeout enable] }

/-- The function `set_enabled` (lines 640-699).  It returns `void`; the
barrier `mb()` has no effect on the record. -/
def set_enabled (e : set_enabled_env) (enable : Bool) (s : omap_crtc W) : omap_crtc W :=
  let channel := s.channel
  if e.output_type = e.OMAP_DISPLAY_TYPE_HDMI then
    dispc_mgr_enable channel enable s
  else if e.is_enabled = enable then
    s
  else
    let s1 :=
      if s.channel = e.OMAP_DSS_CHANNEL_DIGIT then
        { s with ignore_digit_sync_lost := true }
      else s
    let framedone_irq := e.framedone_irq
    let vsync_irq := e.vsync_irq
    let ws :=
      if enable then
        omap_irq_wait_init vsync_irq 1 s1
      else if framedone_irq ≠ 0 then
        omap_irq_wait_init framedone_irq 1 s1
      else
        omap_irq_wait_init vsync_irq 2 s1
    let s3 := dispc_mgr_enable channel enable ws.2
    let s4 := omap_irq_wait ws.1 100 s3
    let ret := e.wait_ret
    let s5 := if ret ≠ 0 then dev_err_timeout enable s4 else s4
    if s5.channel = e.OMAP_DSS_CHANNEL_DIGIT then
      { s5 with ignore_digit_sync_lost := false }
    else s5

/-- The function `omap_crtc_work_pending` (lines 760-765). -/
def omap_crtc_work_pending (s : omap_crtc W) : Bool :=
  !s.pending_applies.isEmpty || !s.queued_applies.isEmpty ||
    s.event.isSome || s.old_fb.isSome

/-- A crtc with request 1 queued and request 2 in flight behind a GO. -/
def busy_crtc : omap_crtc (Nat × Nat) :=
  { idle_crtc with go_bit_set := true, pending_applies := [2], queued_applies := [1],
                   applies := fun r => if r = 1 then { counting_apply with queued := true }
                                       else counting_apply,
                   apply_irq_registered := true }

/-- A sample environment of `set_enabled`: a panel output on a disabled
channel that has a frame-done irq; the wait succeeds. -/
def panel_env : set_enabled_env where
  OMAP_DISPLAY_TYPE_HDMI := 32
  OMAP_DSS_CHANNEL_DIGIT := 1
  output_type := 1
  is_enabled := false
  framedone_irq := 1
  vsync_irq := 2
  wait_ret := 0

/-- A sample environment of `set_enabled`: an HDMI output on an enabled
channel. -/
def hdmi_env : set_enabled_env :=
  { panel_env with output_type := 32, is_enabled := true }

/-- A sample environment of `set_enabled`: the TV output on the disabled DIGIT
channel, which has no frame-done irq; the wait times out. -/
def digit_env : set_enabled_env :=
  { panel_env with output_type := 16, framedone_irq := 0, wait_ret := -1 }

/-- An idle crtc on the DIGIT channel of `digit_env`. -/
def digit_crtc : omap_crtc (Nat × Nat) :=
  { idle_crtc with channel := 1 }

end OmapCrtc

/-!
# The OMAP 8250 serial driver

A shallow embedding of four functions of `drivers/tty/serial/8250/8250_omap.c`:
`omap8250_rx_fifo_error_recover`, `omap_8250_get_divisor`,
`dma_rx_copy_buffer` and `realloc_rx_dma_buf` (with the DMA set-up and
tear-down it calls).  The fields of `struct uart_8250_port`,
`struct uart_8250_dma` and `struct omap8250_priv` that these functions use are
one record; calls that leave the driver are appended to `calls`; what the
hardware and the kernel answer is an argument.  `unsigned int` values are
natural numbers reduced modulo `2^32` where the code can wrap, `int` values
are integers.
-/

namespace Omap8250

/-- The macro `RX_TRIGGER` (line 85). -/
def RX_TRIGGER : Int := 48

/-- The macro `OMAP_UART_RLSI_THRESHOLD` (line 101). -/
def OMAP_UART_RLSI_THRESHOLD : Int := 100

/-- The macro `UART_IIR_IT_TYPE_SHIFT` (line 97). -/
def UART_IIR_IT_TYPE_SHIFT : Nat := 1

/-- The macro `UART_IIR_IT_TYPE_MASK` (line 98). -/
def UART_IIR_IT_TYPE_MASK : Nat := 0x1f <<< UART_IIR_IT_TYPE_SHIFT

/-- Constants that the driver takes from kernel headers outside these
sources. -/
structure kernel_consts where
  UART_IIR_RLSI : Nat
  UART_LSR_FIFOE : Nat
  UART_FCR_CLEAR_RCVR : Nat
  UART_OMAP_MDR1_13X_MODE : Nat
  UART_OMAP_MDR1_16X_MODE : Nat
  MSEC_PER_SEC : Int
  NSEC_PER_MSEC : Int
  EBUSY : Int

/-- Calls made by the driver to the serial core, the tty layer, the DMA engine
and the timers, in program order. -/
inductive Call where
  | dev_err_rx_fifo_errors
  | serial_port_out_FCR (value : Nat)
  | hrtimer_start (secs nsecs : Int)
  | dma_sync_single_for_cpu (addr size : Int)
  | tty_insert_flip_string (offset size : Int)
  | tty_flip_buffer_push
  | dma_alloc_coherent (size : Int)
  | dma_free_coherent (size : Int) (buf addr : Nat)
  | dmaengine_pause
  | hrtimer_cancel
  | dmaengine_terminate_sync
  | hrtimer_init
  | dmaengine_prep_dma_cyclic (addr : Nat) (size period : Int)
  | dmaengine_submit
  | dma_sync_single_for_device (addr : Nat) (size : Int)
  | dma_async_issue_pending
  deriving DecidableEq

/-- The fields of `struct uart_8250_port` (`port.uartclk`, `fcr`,
`port.icount`), of its `struct uart_8250_dma` (`rxchan` is true when the
pointer is not `NULL`) and of `struct omap8250_priv` that the functions below
use.  `rx_half_fill_time` keeps the two arguments of `ktime_set`. -/
structure uart_8250_port where
  uartclk : Nat
  fcr : Nat
  icount_rx : Int
  icount_buf_overrun : Int
  rxchan : Bool
  rx_size : Int
  rx_pos : Int
  rx_addr : Nat
  rx_buf : Nat
  quot : Nat
  mdr1 : Nat
  rx_half_fill_time : Int × Int
  rx_dma_wd_ready : Int
  rx_fifo_error_run : Int
  calls : List Call
  deriving DecidableEq

/-- The function `omap8250_rx_fifo_error_recover` (lines 579-611); `lsr` is
what `serial_port_in(port, UART_LSR)` reads.  The increment cannot overflow:
it is taken only when the counter is at most the threshold. -/
def omap8250_rx_fifo_error_recover (k : kernel_consts) (iir lsr : Nat)
    (p : uart_8250_port) : uart_8250_port :=
  if (iir &&& UART_IIR_IT_TYPE_MASK) = k.UART_IIR_RLSI ∧ (lsr &&& k.UART_LSR_FIFOE) ≠ 0 then
    if p.rx_fifo_error_run > OMAP_UART_RLSI_THRESHOLD then
      let p1 := { p with calls := p.calls ++ [Call.dev_err_rx_fifo_errors] }
      let p2 := { p1 with calls := p1.calls
                    ++ [Call.serial_port_out_FCR (p1.fcr ||| k.UART_FCR_CLEAR_RCVR)] }
      { p2 with rx_fifo_error_run := 0 }
    else
      { p with rx_fifo_error_run := p.rx_fifo_error_run + 1 }
  else
    { p with rx_fifo_error_run := 0 }

/-- Modelled from the spec: the macro `DIV_ROUND_CLOSEST` of `kernel.h`, which
is not part of these sources, on `unsigned int` operands: the quotient rounded
to the closest integer, `(x + d / 2) / d` in 32-bit arithmetic. -/
def DIV_ROUND_CLOSEST (x d : Nat) : Nat :=
  ((x + d / 2) % 4294967296) / d

/-- Modelled from the spec: the macro `abs` of `kernel.h`, which is not part
of these sources, applied to an `unsigned int` value: the value is read as a
signed 32-bit integer and its magnitude is returned. -/
def abs_uint (x : Nat) : Nat :=
  if x < 2147483648 then x else 4294967296 - x

/-- Lines 205-223 of `omap_8250_get_divisor`: the divisor that is selected and
whether it is the one of the 13x mode; `none` when a division by zero is
reached. -/
def select_divisor (uartclk baud : Nat) : Option (Nat × Bool) :=
  if (13 * baud) % 4294967296 = 0 ∨ (16 * baud) % 4294967296 = 0 then
    none
  else
    let div_13 := DIV_ROUND_CLOSEST uartclk ((13 * baud) % 4294967296)
    let div_16 := DIV_ROUND_CLOSEST uartclk ((16 * baud) % 4294967296)
    let div_13 := if div_13 = 0 then 1 else div_13
    let div_16 := if div_16 = 0 then 1 else div_16
    let abs_d13 := abs_uint ((baud + 4294967296 - uartclk / 13 / div_13) % 4294967296)
    let abs_d16 := abs_uint ((baud + 4294967296 - uartclk / 16 / div_16) % 4294967296)
    if abs_d13 ≥ abs_d16 then
      some (div_16, false)
    else
      some (div_13, true)

/-- The function `omap_8250_get_divisor` (lines 183-224).  `spd_cust` is the
value of `(port->flags & UPF_SPD_MASK) == UPF_SPD_CUST`; `priv->quot` is a
`u16`, so the assignment keeps the low 16 bits. -/
def omap_8250_get_divisor (k : kernel_consts) (spd_cust : Bool) (custom_divisor : Nat)
    (baud : Nat) (p : uart_8250_port) : Option uart_8250_port :=
  if baud = 38400 ∧ spd_cust = true then
    let p1 := { p with quot := (custom_divisor &&& 0xffff) % 65536 }
    if custom_divisor &&& (1 <<< 16) ≠ 0 then
      some { p1 with mdr1 := k.UART_OMAP_MDR1_13X_MODE }
    else
      some { p1 with mdr1 := k.UART_OMAP_MDR1_16X_MODE }
  else
    match select_divisor p.uartclk baud with
    | none => none
    | some (div, is_13) =>
      if is_13 then
        some { p with mdr1 := k.UART_OMAP_MDR1_13X_MODE, quot := div % 65536 }
      else
        some { p with mdr1 := k.UART_OMAP_MDR1_16X_MODE, quot := div % 65536 }

/-- The function `rx_period_align` (lines 777-780); `%` of C truncates. -/
def rx_period_align (val : Int) : Int :=
  val + (RX_TRIGGER - Int.tmod val RX_TRIGGER)

/-- The function `update_rx_dma_wd` (lines 783-790). -/
def update_rx_dma_wd (p : uart_8250_port) : uart_8250_port :=
  if p.rx_dma_wd_ready = 0 then
    p
  else
    { p with calls := p.calls
        ++ [Call.hrtimer_start p.rx_half_fill_time.1 p.rx_half_fill_time.2] }

/-- The function `dma_rx_pos` (lines 792-800); `residue` is `state.residue`
as `dmaengine_tx_status` fills it. -/
def dma_rx_pos (residue : Int) (p : uart_8250_port) : Int :=
  if residue = 0 then 0 else p.rx_size - residue

/-- Lines 854-861 of `dma_rx_copy_buffer`: the position up to which data is
copied, `dma_rx_pos` without the data in progress. -/
def rx_copy_target (residue : Int) (p : uart_8250_port) : Int :=
  let pos := dma_rx_pos residue p
  let in_progress := Int.tmod pos RX_TRIGGER
  if in_progress ≠ 0 then pos - in_progress else pos

/-- The body of the `while` loop of `dma_rx_copy_buffer` (lines 884-893);
`ret` is what `tty_insert_flip_string` returns.  The counters of `icount` are
`__u32`. -/
def rx_copy_round (ret : Int) (p : uart_8250_port) : uart_8250_port :=
  let p1 := { p with calls := p.calls
                ++ [Call.tty_insert_flip_string p.rx_pos RX_TRIGGER] }
  let p2 := { p1 with icount_rx := (p1.icount_rx + ret) % 4294967296 }
  let p3 := { p2 with icount_buf_overrun :=
                (p2.icount_buf_overrun + (RX_TRIGGER - ret)) % 4294967296 }
  let p4 := { p3 with rx_pos := p3.rx_pos + RX_TRIGGER }
  if p4.rx_pos = p4.rx_size then { p4 with rx_pos := 0 } else p4

/-- The `while` loop of `dma_rx_copy_buffer` (lines 883-894).  `rets i` is what
`tty_insert_flip_string` returns in round `i`.  The result is `none` when
`fuel` tests of the loop condition do not reach the exit. -/
def rx_copy_loop (rets : Nat → Int) (pos : Int) :
    Nat → Nat → uart_8250_port → Option uart_8250_port
  | 0, _, _ => none
  | fuel + 1, i, p =>
    if p.rx_pos ≠ pos then
      rx_copy_loop rets pos fuel (i + 1) (rx_copy_round (rets i) p)
    else
      some p

/-- The function `dma_rx_copy_buffer` (lines 836-899). -/
def dma_rx_copy_buffer (residue : Int) (rets : Nat → Int) (fuel : Nat)
    (update_wdog : Bool) (p : uart_8250_port) : Option uart_8250_port :=
  let p0 := if update_wdog then update_rx_dma_wd p else p
  if p0.rxchan = false then
    some p0
  else
    let pos := rx_copy_target residue p0
    if pos = p0.rx_pos then
      some p0
    else
      let p1 :=
        if pos > p0.rx_pos then
          { p0 with calls := p0.calls
              ++ [Call.dma_sync_single_for_cpu (p0.rx_addr + p0.rx_pos) (pos - p0.rx_pos)] }
        else
          let q := { p0 with calls := p0.calls
              ++ [Call.dma_sync_single_for_cpu (p0.rx_addr + p0.rx_pos)
                    (p0.rx_size - p0.rx_pos)] }
          if pos > 0 then
            { q with calls := q.calls ++ [Call.dma_sync_single_for_cpu q.rx_addr pos] }
          else q
      match rx_copy_loop rets pos fuel 0 p1 with
      | none => none
      | some p2 => some { p2 with calls := p2.calls ++ [Call.tty_flip_buffer_push] }

/-- The function `omap_8250_rx_dma_setup` (lines 962-992); `desc_ok` tells
whether `dmaengine_prep_dma_cyclic` returned a descriptor. -/
def omap_8250_rx_dma_setup (k : kernel_consts) (desc_ok : Bool) (p : uart_8250_port) :
    Int × uart_8250_port :=
  let p1 := { p with calls := p.calls ++ [Call.hrtimer_init] }
  let p2 := { p1 with calls := p1.calls
                ++ [Call.dmaengine_prep_dma_cyclic p1.rx_addr p1.rx_size RX_TRIGGER] }
  if desc_ok = false then
    (-k.EBUSY, p2)
  else
    let p3 := { p2 with rx_pos := 0 }
    let p4 := { p3 with calls := p3.calls ++ [Call.dmaengine_submit] }
    let p5 := { p4 with calls := p4.calls
                  ++ [Call.dma_sync_single_for_device p4.rx_addr p4.rx_size] }
    let p6 := update_rx_dma_wd p5
    (0, { p6 with calls := p6.calls ++ [Call.dma_async_issue_pending] })

/-- The function `omap_8250_rx_dma_teardown` (lines 994-1003). -/
def omap_8250_rx_dma_teardown (residue : Int) (rets : Nat → Int) (fuel : Nat)
    (p : uart_8250_port) : Option uart_8250_port :=
  let p1 := { p with calls := p.calls ++ [Call.dmaengine_pause] }
  let p2 := { p1 with calls := p1.calls ++ [Call.hrtimer_cancel] }
  match dma_rx_copy_buffer residue rets fuel false p2 with
  | none => none
  | some p3 => some { p3 with calls := p3.calls ++ [Call.dmaengine_terminate_sync] }

/-- What `realloc_rx_dma_buf` is answered: the buffer and bus address that
`dma_alloc_coherent` returns (`none` for `NULL`), and the answers its callees
get. -/
structure dma_answers where
  alloc : Option (Nat × Nat)
  residue : Int
  rets : Nat → Int
  desc_ok : Bool

/-- The part of `realloc_rx_dma_buf` after the label `out` (lines 948-959).
`unsigned long` has 32 bits on this platform. -/
def realloc_rx_dma_buf_out (k : kernel_consts) (a : dma_answers) (rx_size : Int)
    (do_dma_setup : Bool) (p : uart_8250_port) : uart_8250_port :=
  let val := (((k.MSEC_PER_SEC / 2) * p.rx_size) % 4294967296) / rx_size
  let p1 := { p with rx_half_fill_time :=
                (val / k.MSEC_PER_SEC, (val % k.MSEC_PER_SEC) * k.NSEC_PER_MSEC) }
  if do_dma_setup then
    let p2 := (omap_8250_rx_dma_setup k a.desc_ok p1).2
    { p2 with rx_dma_wd_ready := 1 }
  else
    update_rx_dma_wd p1

/-- The function `realloc_rx_dma_buf` (lines 914-960); `baud` is an
`unsigned int`.  The result is `none` when the copy loop of the tear-down does
not end within `fuel` rounds. -/
def realloc_rx_dma_buf (k : kernel_consts) (a : dma_answers) (fuel : Nat) (baud : Nat)
    (p : uart_8250_port) : Option uart_8250_port :=
  let rx_size := rx_period_align ((baud / 8 : Nat) : Int)
  if rx_size ≤ p.rx_size then
    some (realloc_rx_dma_buf_out k a rx_size false p)
  else
    let p1 := { p with calls := p.calls ++ [Call.dma_alloc_coherent rx_size] }
    match a.alloc with
    | none => some (realloc_rx_dma_buf_out k a rx_size false p1)
    | some (rx_buf, rx_addr) =>
      match omap_8250_rx_dma_teardown a.residue a.rets fuel p1 with
      | none => none
      | some p2 =>
        let p3 := { p2 with calls := p2.calls
                      ++ [Call.dma_free_coherent p2.rx_size p2.rx_buf p2.rx_addr] }
        let p4 := { p3 with rx_addr := rx_addr }
        let p5 := { p4 with rx_buf := rx_buf }
        let p6 := { p5 with rx_size := rx_size }
        some (realloc_rx_dma_buf_out k a rx_size true p6)

/-- Sample values of the header constants. -/
def sample_consts : kernel_consts where
  UART_IIR_RLSI := 0x06
  UART_LSR_FIFOE := 0x80
  UART_FCR_CLEAR_RCVR := 0x02
  UART_OMAP_MDR1_13X_MODE := 0x03
  UART_OMAP_MDR1_16X_MODE := 0x00
  MSEC_PER_SEC := 1000
  NSEC_PER_MSEC := 1000000
  EBUSY := 16

/-- A port as the probe leaves it: a 48 MHz clock and the default ring of
`rx_period_align(230400 / 8)` bytes (line 1427), no error run. -/
def sample_port : uart_8250_port where
  uartclk := 48000000
  fcr := 0x51
  icount_rx := 0
  icount_buf_overrun := 0
  rxchan := true
  rx_size := 28848
  rx_pos := 0
  rx_addr := 0x80000000
  rx_buf := 0xc0000000
  quot := 0
  mdr1 := 0
  rx_half_fill_time := (0, 0)
  rx_dma_wd_ready := 0
  rx_fifo_error_run := 0
  calls := []

/-- The sample port with the ring position one period before the end. -/
def ring_port : uart_8250_port :=
  { sample_port with rx_pos := 28800 }

/-- Answers in which `dma_alloc_coherent` fails. -/
def alloc_fails : dma_answers where
  alloc := none
  residue := 28748
  rets := fun _ => 48
  desc_ok := true

/-- Answers in which `dma_alloc_coherent` returns a buffer. -/
def alloc_works : dma_answers where
  alloc := some (0xc1000000, 0x81000000)
  residue := 28748
  rets := fun _ => 48
  desc_ok := true

end Omap8250

namespace OmapCrtc

variable {W : Type}

/-! ## The two loops of the worker -/

@[simp] theorem set_queued_queued (a : Req → omap_drm_apply W) (x r : Req) (v : Bool) :
    (set_queued a x v r).queued = if r = x then v else (a r).queued := by
  unfold set_queued; split <;> rfl

@[simp] theorem set_queued_pre_apply (a : Req → omap_drm_apply W) (x r : Req) (v : Bool) :
    (set_queued a x v r).pre_apply = (a r).pre_apply := by
  unfold set_queued; split <;> rfl

@[simp] theorem set_queued_post_apply (a : Req → omap_drm_apply W) (x r : Req) (v : Bool) :
    (set_queued a x v r).post_apply = (a r).post_apply := by
  unfold set_queued; split <;> rfl

@[simp] theorem finish_pending_trace (l : List Req) (s : omap_crtc W) :
    (finish_pending l s).trace = s.trace ++ l.map Event.post_apply := by
  induction l generalizing s with
  | nil => simp [finish_pending]
  | cons a n ih => simp [finish_pending, ih]

@[simp] theorem finish_pending_queued_applies (l : List Req) (s : omap_crtc W) :
    (finish_pending l s).queued_applies = s.queued_applies := by
  induction l generalizing s with
  | nil => simp [finish_pending]
  | cons a n ih => simp [finish_pending, ih]

@[simp] theorem finish_pending_applies (l : List Req) (s : omap_crtc W) :
    (finish_pending l s).applies = s.applies := by
  induction l generalizing s with
  | nil => simp [finish_pending]
  | cons a n ih => simp [finish_pending, ih]

@[simp] theorem finish_pending_go_bit_set (l : List Req) (s : omap_crtc W) :
    (finish_pending l s).go_bit_set = s.go_bit_set := by
  induction l generalizing s with
  | nil => simp [finish_pending]
  | cons a n ih => simp [finish_pending, ih]

@[simp] theorem finish_pending_apply_work_pending (l : List Req) (s : omap_crtc W) :
    (finish_pending l s).apply_work_pending = s.apply_work_pending := by
  induction l generalizing s with
  | nil => simp [finish_pending]
  | cons a n ih => simp [finish_pending, ih]

@[simp] theorem finish_pending_apply_irq_registered (l : List Req) (s : omap_crtc W) :
    (finish_pending l s).apply_irq_registered = s.apply_irq_registered := by
  induction l generalizing s with
  | nil => simp [finish_pending]
  | cons a n ih => simp [finish_pending, ih]

@[simp] theorem finish_pending_pending_applies (l : List Req) (s : omap_crtc W) :
    (finish_pending l s).pending_applies = if l = [] then s.pending_applies else [] := by
  induction l generalizing s with
  | nil => simp [finish_pending]
  | cons a n ih =>
    simp only [finish_pending, ih]
    by_cases hn : n = [] <;> simp [hn]

@[simp] theorem handle_queued_trace (l : List Req) (s : omap_crtc W) :
    (handle_queued l s).trace = s.trace ++ l.map Event.pre_apply := by
  induction l generalizing s with
  | nil => simp [handle_queued]
  | cons a n ih => simp [handle_queued, ih]

@[simp] theorem handle_queued_pending_applies (l : List Req) (s : omap_crtc W) :
    (handle_queued l s).pending_applies = s.pending_applies ++ l := by
  induction l generalizing s with
  | nil => simp [handle_queued]
  | cons a n ih => simp [handle_queued, ih]

@[simp] theorem handle_queued_go_bit_set (l : List Req) (s : omap_crtc W) :
    (handle_queued l s).go_bit_set = s.go_bit_set := by
  induction l generalizing s with
  | nil => simp [handle_queued]
  | cons a n ih => simp [handle_queued, ih]

@[simp] theorem handle_queued_apply_work_pending (l : List Req) (s : omap_crtc W) :
    (handle_queued l s).apply_work_pending = s.apply_work_pending := by
  induction l generalizing s with
  | nil => simp [handle_queued]
  | cons a n ih => simp [handle_queued, ih]

@[simp] theorem handle_queued_apply_irq_registered (l : List Req) (s : omap_crtc W) :
    (handle_queued l s).apply_irq_registered = s.apply_irq_registered := by
  induction l generalizing s with
  | nil => simp [handle_queued]
  | cons a n ih => simp [handle_queued, ih]

@[simp] theorem handle_queued_queued_applies (l : List Req) (s : omap_crtc W) :
    (handle_queued l s).queued_applies = if l = [] then s.queued_applies else [] := by
  induction l generalizing s with
  | nil => simp [handle_queued]
  | cons a n ih =>
    simp only [handle_queued, ih]
    by_cases hn : n = [] <;> simp [hn]

@[simp] theorem handle_queued_flag (l : List Req) (s : omap_crtc W) (r : Req) :
    ((handle_queued l s).applies r).queued
      = if r ∈ l then false else (s.applies r).queued := by
  induction l generalizing s with
  | nil => simp [handle_queued]
  | cons a n ih =>
    simp only [handle_queued, ih, set_queued_queued, List.mem_cons]
    by_cases h1 : r ∈ n <;> by_cases h2 : r = a <;> simp [h1, h2]

/-! ## The worker, field by field -/

/-- The calls of the last part of `apply_worker` (lines 590-605). -/
theorem apply_worker_busy (en : Bool) (s : omap_crtc W) (h : s.go_bit_set = true) :
    apply_worker en s
      = { s with trace := s.trace ++ [Event.dispc_runtime_get, Event.dispc_runtime_put] } := by
  simp [apply_worker, dispc_runtime_get, dispc_runtime_put, h]

theorem apply_worker_trace (en : Bool) (s : omap_crtc W) (h : s.go_bit_set = false) :
    (apply_worker en s).trace
      = s.trace ++ (Event.dispc_runtime_get :: s.pending_applies.map Event.post_apply
          ++ s.queued_applies.map Event.pre_apply
          ++ (if s.queued_applies = [] then []
              else if en = true then [Event.omap_irq_register, Event.dispc_mgr_go]
              else [Event.queue_work false])
          ++ [Event.dispc_runtime_put]) := by
  cases hq : s.queued_applies <;> cases en <;>
    simp [apply_worker, dispc_runtime_get, dispc_runtime_put, h, hq, queue_work,
      omap_irq_register, dispc_mgr_go]

theorem apply_worker_pending_applies (en : Bool) (s : omap_crtc W)
    (h : s.go_bit_set = false) :
    (apply_worker en s).pending_applies = s.queued_applies := by
  cases hq : s.queued_applies <;> cases hp : s.pending_applies <;> cases en <;>
    simp [apply_worker, dispc_runtime_get, dispc_runtime_put, h, hq, hp, queue_work,
      omap_irq_register, dispc_mgr_go]

theorem apply_worker_queued_applies (en : Bool) (s : omap_crtc W)
    (h : s.go_bit_set = false) :
    (apply_worker en s).queued_applies = [] := by
  cases hq : s.queued_applies <;> cases hp : s.pending_applies <;> cases en <;>
    simp [apply_worker, dispc_runtime_get, dispc_runtime_put, h, hq, hp, queue_work,
      omap_irq_register, dispc_mgr_go]

theorem apply_worker_go_bit_set (en : Bool) (s : omap_crtc W)
    (h : s.go_bit_set = false) :
    (apply_worker en s).go_bit_set = (!s.queued_applies.isEmpty && en) := by
  cases hq : s.queued_applies <;> cases en <;>
    simp [apply_worker, dispc_runtime_get, dispc_runtime_put, h, hq, queue_work,
      omap_irq_register, dispc_mgr_go]

theorem apply_worker_flag (en : Bool) (s : omap_crtc W) (r : Req)
    (h : s.go_bit_set = false) :
    ((apply_worker en s).applies r).queued
      = if r ∈ s.queued_applies then false else (s.applies r).queued := by
  cases hq : s.queued_applies <;> cases en <;>
    simp [apply_worker, dispc_runtime_get, dispc_runtime_put, h, hq, queue_work,
      omap_irq_register, dispc_mgr_go]

/-! ## Steps and runs -/

@[simp] theorem run_nil (s : omap_crtc W) : run s [] = s := rfl

@[simp] theorem run_cons (s : omap_crtc W) (st : Step) (l : List Step) :
    run s (st :: l) = run (step s st) l := rfl

theorem run_append (s : omap_crtc W) (l m : List Step) :
    run s (l ++ m) = run (run s l) m := by
  simp [run, List.foldl_append]

/-- An invariant kept by every allowed step holds after every run of allowed
steps. -/
theorem run_induction (I : omap_crtc W → Prop) (ok : Step → Prop)
    (hstep : ∀ s st, I s → ok st → I (step s st)) :
    ∀ (steps : List Step) (s : omap_crtc W), I s → (∀ st ∈ steps, ok st) → I (run s steps) := by
  intro steps
  induction steps with
  | nil => intro s h _; exact h
  | cons st l ih =>
    intro s h hok
    exact ih (step s st) (hstep s st h (hok st (List.mem_cons_self _ _)))
      (fun x hx => hok x (List.mem_cons_of_mem _ hx))

theorem step_submit_trace (s : omap_crtc W) (r : Req) :
    (step s (Step.submit r)).trace
      = s.trace ++ (if (s.applies r).queued = false ∧ s.pending_applies = []
          then [Event.queue_work s.go_bit_set] else []) := by
  cases hf : (s.applies r).queued <;> cases hp : s.pending_applies <;>
    simp [step, omap_crtc_apply, hf, hp, queue_work]

theorem step_irq_trace (s : omap_crtc W) (busy : Bool) :
    (step s (Step.irq busy)).trace
      = s.trace ++ (if s.go_bit_set = true ∧ busy = false
          then [Event.omap_irq_unregister true, Event.queue_work false] else []) := by
  cases hg : s.go_bit_set <;> cases busy <;>
    simp [step, omap_crtc_apply_irq, hg, queue_work, omap_irq_unregister]

theorem step_worker_trace (s : omap_crtc W) (en : Bool) :
    (step s (Step.worker en)).trace
      = s.trace ++ (if s.go_bit_set = true
          then [Event.dispc_runtime_get, Event.dispc_runtime_put]
          else Event.dispc_runtime_get :: s.pending_applies.map Event.post_apply
            ++ s.queued_applies.map Event.pre_apply
            ++ (if s.queued_applies = [] then []
                else if en = true then [Event.omap_irq_register, Event.dispc_mgr_go]
                else [Event.queue_work false])
            ++ [Event.dispc_runtime_put]) := by
  cases hg : s.go_bit_set
  · simp only [step]
    rw [apply_worker_trace _ _ (by simpa using hg)]
    simp
  · simp only [step]
    rw [apply_worker_busy _ _ (by simpa using hg)]
    simp

theorem emitted_submit (s : omap_crtc W) (r : Req) :
    emitted s (Step.submit r)
      = if (s.applies r).queued = false ∧ s.pending_applies = []
          then [Event.queue_work s.go_bit_set] else [] := by
  unfold emitted; rw [step_submit_trace]; simp

theorem emitted_irq (s : omap_crtc W) (busy : Bool) :
    emitted s (Step.irq busy)
      = if s.go_bit_set = true ∧ busy = false
          then [Event.omap_irq_unregister true, Event.queue_work false] else [] := by
  unfold emitted; rw [step_irq_trace]; simp

theorem emitted_worker (s : omap_crtc W) (en : Bool) :
    emitted s (Step.worker en)
      = if s.go_bit_set = true
          then [Event.dispc_runtime_get, Event.dispc_runtime_put]
          else Event.dispc_runtime_get :: s.pending_applies.map Event.post_apply
            ++ s.queued_applies.map Event.pre_apply
            ++ (if s.queued_applies = [] then []
                else if en = true then [Event.omap_irq_register, Event.dispc_mgr_go]
                else [Event.queue_work false])
            ++ [Event.dispc_runtime_put] := by
  unfold emitted; rw [step_worker_trace]; simp

theorem step_trace (s : omap_crtc W) (st : Step) :
    (step s st).trace = s.trace ++ emitted s st := by
  cases st with
  | submit r => rw [emitted_submit, step_submit_trace]
  | worker en => rw [emitted_worker, step_worker_trace]
  | irq busy => rw [emitted_irq, step_irq_trace]

theorem step_submit_go_bit_set (s : omap_crtc W) (r : Req) :
    (step s (Step.submit r)).go_bit_set = s.go_bit_set := by
  cases hf : (s.applies r).queued <;> cases hp : s.pending_applies <;>
    simp [step, omap_crtc_apply, hf, hp, queue_work]

theorem step_submit_pending_applies (s : omap_crtc W) (r : Req) :
    (step s (Step.submit r)).pending_applies = s.pending_applies := by
  cases hf : (s.applies r).queued <;> cases hp : s.pending_applies <;>
    simp [step, omap_crtc_apply, hf, hp, queue_work]

theorem step_submit_queued_applies (s : omap_crtc W) (r : Req) :
    (step s (Step.submit r)).queued_applies
      = if (s.applies r).queued = true then s.queued_applies
        else s.queued_applies ++ [r] := by
  cases hf : (s.applies r).queued <;> cases hp : s.pending_applies <;>
    simp [step, omap_crtc_apply, hf, hp, queue_work]

theorem step_submit_flag (s : omap_crtc W) (r x : Req) :
    ((step s (Step.submit r)).applies x).queued
      = if x = r then true else (s.applies x).queued := by
  cases hf : (s.applies r).queued <;> cases hp : s.pending_applies <;>
    by_cases hx : x = r <;>
    simp [step, omap_crtc_apply, hf, hp, queue_work, hx]

theorem step_irq_go_bit_set (s : omap_crtc W) (busy : Bool) :
    (step s (Step.irq busy)).go_bit_set = (s.go_bit_set && busy) := by
  cases hg : s.go_bit_set <;> cases busy <;>
    simp [step, omap_crtc_apply_irq, hg, queue_work, omap_irq_unregister]

theorem step_irq_pending_applies (s : omap_crtc W) (busy : Bool) :
    (step s (Step.irq busy)).pending_applies = s.pending_applies := by
  cases hg : s.go_bit_set <;> cases busy <;>
    simp [step, omap_crtc_apply_irq, hg, queue_work, omap_irq_unregister]

theorem step_irq_queued_applies (s : omap_crtc W) (busy : Bool) :
    (step s (Step.irq busy)).queued_applies = s.queued_applies := by
  cases hg : s.go_bit_set <;> cases busy <;>
    simp [step, omap_crtc_apply_irq, hg, queue_work, omap_irq_unregister]

theorem step_irq_applies (s : omap_crtc W) (busy : Bool) :
    (step s (Step.irq busy)).applies = s.applies := by
  cases hg : s.go_bit_set <;> cases busy <;>
    simp [step, omap_crtc_apply_irq, hg, queue_work, omap_irq_unregister]

theorem step_worker_busy (s : omap_crtc W) (en : Bool) (h : s.go_bit_set = true) :
    (step s (Step.worker en)).go_bit_set = true ∧
    (step s (Step.worker en)).pending_applies = s.pending_applies ∧
    (step s (Step.worker en)).queued_applies = s.queued_applies ∧
    (step s (Step.worker en)).applies = s.applies := by
  simp only [step]
  rw [apply_worker_busy _ _ (by simpa using h)]
  simp [h]

theorem step_worker_idle (s : omap_crtc W) (en : Bool) (h : s.go_bit_set = false) :
    (step s (Step.worker en)).go_bit_set = (!s.queued_applies.isEmpty && en) ∧
    (step s (Step.worker en)).pending_applies = s.queued_applies ∧
    (step s (Step.worker en)).queued_applies = [] ∧
    ∀ r, ((step s (Step.worker en)).applies r).queued
      = if r ∈ s.queued_applies then false else (s.applies r).queued := by
  simp only [step]
  refine ⟨?_, ?_, ?_, ?_⟩
  · rw [apply_worker_go_bit_set _ _ (by simpa using h)]
  · rw [apply_worker_pending_applies _ _ (by simpa using h)]
  · rw [apply_worker_queued_applies _ _ (by simpa using h)]
  · intro r
    rw [apply_worker_flag _ _ _ (by simpa using h)]

/-- A step that calls `dispc_mgr_go` is a worker run entered with `go_bit_set`
clear, on an enabled channel, with a non-empty queue; `go_bit_set` is set when
it returns. -/
theorem go_emitted (s : omap_crtc W) (st : Step)
    (h : Event.dispc_mgr_go ∈ emitted s st) :
    st = Step.worker true ∧ s.go_bit_set = false ∧ s.queued_applies ≠ [] ∧
    (step s st).go_bit_set = true := by
  cases st with
  | submit r =>
    rw [emitted_submit] at h
    split at h <;> simp at h
  | irq busy =>
    rw [emitted_irq] at h
    split at h <;> simp at h
  | worker en =>
    rw [emitted_worker] at h
    cases hg : s.go_bit_set
    · cases hq : s.queued_applies with
      | nil => simp [hg, hq] at h
      | cons a n =>
        cases en
        · simp [hg, hq] at h
        · refine ⟨rfl, rfl, by simp, ?_⟩
          rw [(step_worker_idle s true hg).1, hq]; rfl
    · simp [hg] at h

/-- A step that clears `go_bit_set` is a completion interrupt that saw
`dispc_mgr_go_busy` false. -/
theorem go_bit_cleared (s : omap_crtc W) (st : Step)
    (h : s.go_bit_set = true) (h1 : (step s st).go_bit_set = false) :
    st = Step.irq false := by
  cases st with
  | submit r => rw [step_submit_go_bit_set, h] at h1; cases h1
  | worker en => rw [(step_worker_busy s en h).1] at h1; cases h1
  | irq busy =>
    rw [step_irq_go_bit_set, h] at h1
    cases busy
    · rfl
    · simp at h1

/-- When `go_bit_set` is set before a run and clear after it, the run contains
a completion interrupt with `dispc_mgr_go_busy` false that found the flag set
and cleared it. -/
theorem go_bit_flip (m : List Step) (s : omap_crtc W)
    (h : s.go_bit_set = true) (h1 : (run s m).go_bit_set = false) :
    ∃ m1 m2, m = m1 ++ Step.irq false :: m2 ∧ (run s m1).go_bit_set = true ∧
      (run s (m1 ++ [Step.irq false])).go_bit_set = false := by
  induction m generalizing s with
  | nil => rw [run_nil, h] at h1; cases h1
  | cons st l ih =>
    cases hs : (step s st).go_bit_set
    · have hst := go_bit_cleared s st h hs
      subst hst
      exact ⟨[], l, rfl, h, by simpa using hs⟩
    · obtain ⟨m1, m2, e, a, b⟩ := ih (step s st) hs (by simpa using h1)
      exact ⟨st :: m1, m2, by rw [e]; rfl, by simpa using a, by simpa using b⟩

/-! ## The GO handshake -/

/-- While no completion interrupt sees `dispc_mgr_go_busy` false, a set
`go_bit_set` stays set and `pending_applies` does not change. -/
theorem outstanding_stable (q : List Step) (s : omap_crtc W)
    (h : s.go_bit_set = true) (hq : ∀ st ∈ q, st ≠ Step.irq false) :
    (run s q).go_bit_set = true ∧ (run s q).pending_applies = s.pending_applies := by
  refine run_induction
    (fun t => t.go_bit_set = true ∧ t.pending_applies = s.pending_applies)
    (fun st => st ≠ Step.irq false) ?_ q s ⟨h, rfl⟩ hq
  intro t st ⟨hg, hp⟩ hst
  cases st with
  | submit r => exact ⟨by rw [step_submit_go_bit_set, hg], by rw [step_submit_pending_applies, hp]⟩
  | worker en =>
    obtain ⟨a, b, _, _⟩ := step_worker_busy t en hg
    exact ⟨a, by rw [b, hp]⟩
  | irq busy =>
    cases busy
    · exact absurd rfl hst
    · exact ⟨by rw [step_irq_go_bit_set, hg]; rfl, by rw [step_irq_pending_applies, hp]⟩

@[simp] theorem count_go_map_post (l : List Req) :
    List.count Event.dispc_mgr_go (l.map Event.post_apply) = 0 := by
  rw [List.count_eq_zero]; simp

@[simp] theorem count_go_map_pre (l : List Req) :
    List.count Event.dispc_mgr_go (l.map Event.pre_apply) = 0 := by
  rw [List.count_eq_zero]; simp

/-- Without a completion the number of `dispc_mgr_go` calls grows by at most
one, and only by setting `go_bit_set`. -/
theorem go_count_step (c : Nat) (t : omap_crtc W) (st : Step)
    (hI : t.trace.count Event.dispc_mgr_go = c ∨
      (t.trace.count Event.dispc_mgr_go = c + 1 ∧ t.go_bit_set = true))
    (hst : st ≠ Step.irq false) :
    (step t st).trace.count Event.dispc_mgr_go = c ∨
      ((step t st).trace.count Event.dispc_mgr_go = c + 1 ∧
        (step t st).go_bit_set = true) := by
  cases st with
  | submit r =>
    have e : (step t (Step.submit r)).trace.count Event.dispc_mgr_go
        = t.trace.count Event.dispc_mgr_go := by
      rw [step_submit_trace]; split <;> simp
    rw [e, step_submit_go_bit_set]; exact hI
  | irq busy =>
    cases busy
    · exact absurd rfl hst
    · have e : step t (Step.irq true) = t := by
        simp [step, omap_crtc_apply_irq]
      rw [e]; exact hI
  | worker en =>
    cases hg : t.go_bit_set
    · have hc : t.trace.count Event.dispc_mgr_go = c := by
        rcases hI with h | ⟨_, h⟩
        · exact h
        · rw [hg] at h; cases h
      have hgo := (step_worker_idle t en hg).1
      rw [step_worker_trace, hg]
      cases hq : t.queued_applies with
      | nil => left; simp [hc]
      | cons a n =>
        cases en
        · left; simp [hc]
        · right
          refine ⟨?_, by rw [hgo, hq]; rfl⟩
          simp [hc, List.count_cons]
    · have e : (step t (Step.worker en)).trace.count Event.dispc_mgr_go
          = t.trace.count Event.dispc_mgr_go := by
        rw [step_worker_trace, hg]; simp [List.count_cons]
      rw [e, (step_worker_busy t en hg).1]
      rcases hI with h | h
      · exact Or.inl h
      · exact Or.inr ⟨h.1, rfl⟩

/-! ## Membership in the two lists -/

/-- The two lists stay disjoint over a step that is not a submission of a
request that is in flight. -/
theorem disjoint_step (s : omap_crtc W) (st : Step)
    (hD : ∀ x, ¬ (x ∈ s.queued_applies ∧ x ∈ s.pending_applies))
    (hst : ∀ r, st = Step.submit r → r ∉ s.pending_applies) :
    ∀ x, ¬ (x ∈ (step s st).queued_applies ∧ x ∈ (step s st).pending_applies) := by
  intro x
  cases st with
  | submit r =>
    rw [step_submit_queued_applies, step_submit_pending_applies]
    split
    · exact hD x
    · rintro ⟨hx, hp⟩
      rcases List.mem_append.1 hx with h | h
      · exact hD x ⟨h, hp⟩
      · rw [List.mem_singleton] at h
        subst h
        exact hst x rfl hp
  | worker en =>
    cases hg : s.go_bit_set
    · rw [(step_worker_idle s en hg).2.2.1]
      simp
    · obtain ⟨_, b, c, _⟩ := step_worker_busy s en hg
      rw [b, c]; exact hD x
  | irq busy =>
    rw [step_irq_queued_applies, step_irq_pending_applies]; exact hD x

theorem disjoint_run (steps : List Step) (s : omap_crtc W)
    (hD : ∀ x, ¬ (x ∈ s.queued_applies ∧ x ∈ s.pending_applies))
    (hsub : ∀ p r q, steps = p ++ Step.submit r :: q → r ∉ (run s p).pending_applies) :
    ∀ x, ¬ (x ∈ (run s steps).queued_applies ∧ x ∈ (run s steps).pending_applies) := by
  induction steps generalizing s with
  | nil => exact hD
  | cons st l ih =>
    rw [run_cons]
    apply ih (step s st)
    · exact disjoint_step s st hD (fun r e => hsub [] r l (by rw [e]; rfl))
    · intro p r q e
      have := hsub (st :: p) r q (by rw [e]; rfl)
      simpa using this

theorem consistent_step (s : omap_crtc W) (st : Step) (h : Consistent s) :
    Consistent (step s st) := by
  obtain ⟨hf, hq, hp⟩ := h
  cases st with
  | submit r =>
    refine ⟨?_, ?_, ?_⟩
    · intro x
      rw [step_submit_queued_applies, step_submit_flag]
      cases hr : (s.applies r).queued
      · by_cases hx : x = r
        · simp [hx]
        · simp [hx, hf x]
      · by_cases hx : x = r
        · subst hx; simp [(hf x).2 hr]
        · simp [hx, hf x]
    · rw [step_submit_queued_applies]
      cases hr : (s.applies r).queued
      · have hn : r ∉ s.queued_applies := fun hm => by
          rw [(hf r).1 hm] at hr; cases hr
        simp only [Bool.false_eq_true, if_false]
        exact List.Nodup.append hq (List.nodup_singleton r)
          (by simpa using hn)
      · simpa using hq
    · rw [step_submit_pending_applies]; exact hp
  | worker en =>
    cases hg : s.go_bit_set
    · obtain ⟨_, b, c, d⟩ := step_worker_idle s en hg
      refine ⟨?_, by rw [c]; exact List.nodup_nil, by rw [b]; exact hq⟩
      intro x
      rw [c, d x]
      by_cases hx : x ∈ s.queued_applies
      · simp [hx]
      · have := (hf x).not.1 hx
        simp [hx, this]
    · obtain ⟨_, b, c, d⟩ := step_worker_busy s en hg
      exact ⟨by rw [c, d]; exact hf, by rw [c]; exact hq, by rw [b]; exact hp⟩
  | irq busy =>
    refine ⟨?_, ?_, ?_⟩
    · rw [step_irq_queued_applies, step_irq_applies]; exact hf
    · rw [step_irq_queued_applies]; exact hq
    · rw [step_irq_pending_applies]; exact hp

theorem consistent_run (steps : List Step) (s : omap_crtc W) (h : Consistent s) :
    Consistent (run s steps) :=
  run_induction Consistent (fun _ => True) (fun t st hI _ => consistent_step t st hI)
    steps s h (fun _ _ => trivial)

/-! ## Order of calls -/

theorem precedes_nil {α : Type} (x y : α) : Precedes x y [] := by
  intro a b e
  cases a <;> cases e

theorem precedes_cons {α : Type} (x y e : α) (l : List α) :
    Precedes x y (e :: l) ↔ e ≠ y ∧ (e = x ∨ Precedes x y l) := by
  constructor
  · intro h
    have hy : e ≠ y := by
      intro hey
      have := h [] l (by rw [hey]; rfl)
      cases this
    refine ⟨hy, ?_⟩
    by_cases hx : e = x
    · exact Or.inl hx
    · right
      intro a b hl
      have := h (e :: a) b (by rw [hl]; rfl)
      rcases List.mem_cons.1 this with h1 | h1
      · exact absurd h1.symm hx
      · exact h1
  · rintro ⟨hy, hx⟩ a b hl
    cases a with
    | nil =>
      simp only [List.nil_append, List.cons.injEq] at hl
      exact absurd hl.1 hy
    | cons c a =>
      simp only [List.cons_append, List.cons.injEq] at hl
      obtain ⟨rfl, hl⟩ := hl
      rcases hx with hx | hx
      · rw [hx]; exact List.mem_cons_self _ _
      · exact List.mem_cons_of_mem _ (hx a b hl)

theorem precedes_of_not_mem {α : Type} (x y : α) (l : List α) (h : y ∉ l) :
    Precedes x y l := by
  intro a b e
  exact absurd (by rw [e]; simp) h

theorem precedes_append {α : Type} (x y : α) (l m : List α)
    (hl : Precedes x y l) (hm : Precedes x y m) : Precedes x y (l ++ m) := by
  induction l with
  | nil => simpa using hm
  | cons e l ih =>
    rw [List.cons_append, precedes_cons]
    rw [precedes_cons] at hl
    exact ⟨hl.1, hl.2.imp id ih⟩

theorem precedes_append_of_mem {α : Type} (x y : α) (l m : List α)
    (hl : Precedes x y l) (hx : x ∈ l) : Precedes x y (l ++ m) := by
  induction l with
  | nil => cases hx
  | cons e l ih =>
    rw [List.cons_append, precedes_cons]
    rw [precedes_cons] at hl
    refine ⟨hl.1, ?_⟩
    by_cases he : e = x
    · exact Or.inl he
    · right
      rcases hl.2 with h | h
      · exact absurd h he
      · rcases List.mem_cons.1 hx with h1 | h1
        · exact absurd h1.symm he
        · exact ih h h1

theorem precedes_map {α β : Type} (f : α → β) (hf : Function.Injective f) (x y : α)
    (l : List α) (h : Precedes x y l) : Precedes (f x) (f y) (l.map f) := by
  induction l with
  | nil => exact precedes_nil _ _
  | cons e l ih =>
    rw [List.map_cons, precedes_cons]
    rw [precedes_cons] at h
    exact ⟨fun hh => h.1 (hf hh), h.2.imp (fun hh => by rw [hh]) ih⟩

theorem pre_apply_injective : Function.Injective Event.pre_apply := by
  intro a b h; cases h; rfl

theorem post_apply_injective : Function.Injective Event.post_apply := by
  intro a b h; cases h; rfl

/-- A step that calls `post_apply` of `r` is a worker run entered with
`go_bit_set` clear and `r` on `pending_applies`. -/
theorem post_emitted (s : omap_crtc W) (st : Step) (r : Req)
    (h : Event.post_apply r ∈ emitted s st) :
    (∃ en, st = Step.worker en) ∧ s.go_bit_set = false ∧ r ∈ s.pending_applies := by
  cases st with
  | submit x =>
    rw [emitted_submit] at h
    split at h <;> simp at h
  | irq busy =>
    rw [emitted_irq] at h
    split at h <;> simp at h
  | worker en =>
    rw [emitted_worker] at h
    cases hg : s.go_bit_set
    · refine ⟨⟨en, rfl⟩, rfl, ?_⟩
      simp only [hg, Bool.false_eq_true, if_false] at h
      have h2 : Event.post_apply r ∉ (if s.queued_applies = [] then []
          else if en = true then [Event.omap_irq_register, Event.dispc_mgr_go]
          else [Event.queue_work false]) := by
        split
        · simp
        · split <;> simp
      simpa [h2] using h
    · simp [hg] at h

/-- A step that calls `pre_apply` of `r` is a worker run entered with
`go_bit_set` clear and `r` on `queued_applies`. -/
theorem pre_emitted (s : omap_crtc W) (st : Step) (r : Req)
    (h : Event.pre_apply r ∈ emitted s st) :
    (∃ en, st = Step.worker en) ∧ s.go_bit_set = false ∧ r ∈ s.queued_applies := by
  cases st with
  | submit x =>
    rw [emitted_submit] at h
    split at h <;> simp at h
  | irq busy =>
    rw [emitted_irq] at h
    split at h <;> simp at h
  | worker en =>
    rw [emitted_worker] at h
    cases hg : s.go_bit_set
    · refine ⟨⟨en, rfl⟩, rfl, ?_⟩
      simp only [hg, Bool.false_eq_true, if_false] at h
      have h2 : Event.pre_apply r ∉ (if s.queued_applies = [] then []
          else if en = true then [Event.omap_irq_register, Event.dispc_mgr_go]
          else [Event.queue_work false]) := by
        split
        · simp
        · split <;> simp
      simpa [h2] using h
    · simp [hg] at h

/-- In a worker run entered with `go_bit_set` clear, `pre_apply` of every
queued request is called, and before any `dispc_mgr_go` of the run. -/
theorem pre_before_go (s : omap_crtc W) (en : Bool) (r : Req)
    (hg : s.go_bit_set = false) (hr : r ∈ s.queued_applies) :
    Event.pre_apply r ∈ emitted s (Step.worker en) ∧
    Precedes (Event.pre_apply r) Event.dispc_mgr_go (emitted s (Step.worker en)) := by
  rw [emitted_worker]
  simp only [hg, Bool.false_eq_true, if_false]
  have hm : Event.pre_apply r ∈ Event.dispc_runtime_get :: s.pending_applies.map Event.post_apply
      ++ s.queued_applies.map Event.pre_apply := by
    simp [hr]
  have hP : Precedes (Event.pre_apply r) Event.dispc_mgr_go
      (Event.dispc_runtime_get :: s.pending_applies.map Event.post_apply
        ++ s.queued_applies.map Event.pre_apply) :=
    precedes_of_not_mem _ _ _ (by simp)
  constructor
  · simp [hr]
  · rw [List.append_assoc]
    exact precedes_append_of_mem _ _ _ _ hP hm

/-! ## First in, first out -/

/-- Every step is a worker run entered with `go_bit_set` clear, or it calls no
callback, leaves `pending_applies` alone, does not set `go_bit_set` and at most
appends to `queued_applies`. -/
theorem quiet_or_worker (s : omap_crtc W) (st : Step) :
    (∃ en, st = Step.worker en ∧ s.go_bit_set = false) ∨
    ((∀ r, Event.pre_apply r ∉ emitted s st ∧ Event.post_apply r ∉ emitted s st) ∧
      (step s st).pending_applies = s.pending_applies ∧
      (s.go_bit_set = false → (step s st).go_bit_set = false) ∧
      ∃ m, (step s st).queued_applies = s.queued_applies ++ m) := by
  cases st with
  | submit x =>
    right
    refine ⟨fun r => ⟨fun h => ?_, fun h => ?_⟩, step_submit_pending_applies s x,
      fun h => by rw [step_submit_go_bit_set, h], ?_⟩
    · obtain ⟨⟨en, e⟩, _⟩ := pre_emitted _ _ _ h; cases e
    · obtain ⟨⟨en, e⟩, _⟩ := post_emitted _ _ _ h; cases e
    · rw [step_submit_queued_applies]
      split
      · exact ⟨[], by simp⟩
      · exact ⟨[x], rfl⟩
  | irq busy =>
    right
    refine ⟨fun r => ⟨fun h => ?_, fun h => ?_⟩, step_irq_pending_applies s busy,
      fun h => by rw [step_irq_go_bit_set, h]; rfl, ⟨[], by rw [step_irq_queued_applies]; simp⟩⟩
    · obtain ⟨⟨en, e⟩, _⟩ := pre_emitted _ _ _ h; cases e
    · obtain ⟨⟨en, e⟩, _⟩ := post_emitted _ _ _ h; cases e
  | worker en =>
    cases hg : s.go_bit_set
    · exact Or.inl ⟨en, rfl, rfl⟩
    · right
      obtain ⟨_, b, c, _⟩ := step_worker_busy s en hg
      refine ⟨fun r => ⟨fun h => ?_, fun h => ?_⟩, b, (fun h => by cases h), ⟨[], by rw [c]; simp⟩⟩
      · obtain ⟨_, e, _⟩ := pre_emitted _ _ _ h; rw [hg] at e; cases e
      · obtain ⟨_, e, _⟩ := post_emitted _ _ _ h; rw [hg] at e; cases e

/-- The calls of a worker run entered with `go_bit_set` clear keep the order of
the two lists. -/
theorem worker_emitted_order (s : omap_crtc W) (en : Bool) (A B : Req)
    (hg : s.go_bit_set = false) :
    (Precedes A B s.queued_applies →
      Precedes (Event.pre_apply A) (Event.pre_apply B) (emitted s (Step.worker en))) ∧
    (Precedes A B s.pending_applies →
      Precedes (Event.post_apply A) (Event.post_apply B) (emitted s (Step.worker en))) ∧
    (A ∈ s.queued_applies → Event.pre_apply A ∈ emitted s (Step.worker en)) ∧
    (A ∈ s.pending_applies → Event.post_apply A ∈ emitted s (Step.worker en)) ∧
    (B ∉ s.pending_applies → Event.post_apply B ∉ emitted s (Step.worker en)) := by
  rw [emitted_worker]
  simp only [hg, Bool.false_eq_true, if_false]
  have htail : ∀ e : Event, (∀ r, e ≠ Event.pre_apply r → e ≠ Event.post_apply r → True) →
      ∀ r, Event.pre_apply r ∉ ((if s.queued_applies = [] then []
          else if en = true then [Event.omap_irq_register, Event.dispc_mgr_go]
          else [Event.queue_work false]) ++ [Event.dispc_runtime_put]) ∧
        Event.post_apply r ∉ ((if s.queued_applies = [] then []
          else if en = true then [Event.omap_irq_register, Event.dispc_mgr_go]
          else [Event.queue_work false]) ++ [Event.dispc_runtime_put]) := by
    intro _ _ r
    split
    · simp
    · split <;> simp
  have ht := htail (Event.queue_work false) (fun _ _ _ => trivial)
  refine ⟨fun h => ?_, fun h => ?_, fun h => by simp [h], fun h => by simp [h], fun h => ?_⟩
  · rw [List.append_assoc, List.append_assoc, List.cons_append, precedes_cons]
    refine ⟨by simp, Or.inr ?_⟩
    apply precedes_append _ _ _ _ (precedes_of_not_mem _ _ _ (by simp))
    exact precedes_append _ _ _ _ (precedes_map _ pre_apply_injective _ _ _ h)
      (precedes_of_not_mem _ _ _ (ht B).1)
  · rw [List.append_assoc, List.append_assoc, List.cons_append, precedes_cons]
    refine ⟨by simp, Or.inr ?_⟩
    apply precedes_append _ _ _ _ (precedes_map _ post_apply_injective _ _ _ h)
    exact precedes_append _ _ _ _ (precedes_of_not_mem _ _ _ (by simp))
      (precedes_of_not_mem _ _ _ (ht B).2)
  · have h2 := (ht B).2
    rw [List.append_assoc, List.append_assoc]
    simp only [List.cons_append, List.mem_cons, List.mem_append, List.mem_map, not_or]
    refine ⟨by simp, ?_, by simp, ?_⟩
    · rintro ⟨x, hx, e⟩
      cases e
      exact h hx
    · simpa using h2

theorem fifo_step (t0 : List Event) (A B : Req) (s : omap_crtc W) (st : Step)
    (h : FifoInv t0 A B s) : FifoInv t0 A B (step s st) := by
  obtain ⟨ev, htr, hpre, hpost, hph⟩ := h
  refine ⟨ev ++ emitted s st, by rw [step_trace, htr, List.append_assoc], ?_⟩
  rcases quiet_or_worker s st with ⟨en, rfl, hg⟩ | ⟨hq, hpend, hgo, m, hm⟩
  · obtain ⟨w1, w2, w3, w4, w5⟩ := worker_emitted_order s en A B hg
    obtain ⟨_, b, c, _⟩ := step_worker_idle s en hg
    rcases hph with ⟨_, hp, hA, hAB, hnB, hnB2⟩ | ⟨hA, hnB, hAp, hABp⟩ | ⟨hA, hA2⟩
    · have hBp : B ∉ s.pending_applies := by rw [hp]; simp
      refine ⟨precedes_append _ _ _ _ (precedes_of_not_mem _ _ _ hnB) (w1 hAB),
        precedes_of_not_mem _ _ _ (by simp [hnB2, w5 hBp]), Or.inr (Or.inl ?_)⟩
      exact ⟨by simp [w3 hA], by simp [hnB2, w5 hBp], by rw [b]; exact hA,
        by rw [b]; exact hAB⟩
    · refine ⟨precedes_append_of_mem _ _ _ _ hpre hA,
        precedes_append _ _ _ _ (precedes_of_not_mem _ _ _ hnB) (w2 hABp),
        Or.inr (Or.inr ⟨by simp [hA], by simp [w4 hAp]⟩)⟩
    · exact ⟨precedes_append_of_mem _ _ _ _ hpre hA,
        precedes_append_of_mem _ _ _ _ hpost hA2,
        Or.inr (Or.inr ⟨by simp [hA], by simp [hA2]⟩)⟩
  · have hqB := precedes_of_not_mem (Event.pre_apply A) _ _ (hq B).1
    have hqB2 := precedes_of_not_mem (Event.post_apply A) _ _ (hq B).2
    refine ⟨precedes_append _ _ _ _ hpre hqB, precedes_append _ _ _ _ hpost hqB2, ?_⟩
    rcases hph with ⟨hg, hp, hA, hAB, hnB, hnB2⟩ | ⟨hA, hnB, hAp, hABp⟩ | ⟨hA, hA2⟩
    · left
      refine ⟨hgo hg, by rw [hpend, hp], by rw [hm]; simp [hA],
        by rw [hm]; exact precedes_append_of_mem _ _ _ _ hAB hA, ?_, ?_⟩
      · simp [hnB, (hq B).1]
      · simp [hnB2, (hq B).2]
    · right; left
      exact ⟨by simp [hA], by simp [hnB, (hq B).2], by rw [hpend]; exact hAp,
        by rw [hpend]; exact hABp⟩
    · right; right
      exact ⟨by simp [hA], by simp [hA2]⟩

/-- On an idle pipe, worker runs and interrupts call no callback and leave the
pipe idle. -/
theorem idle_stays_idle (A : Req) (t0 : List Event) (i0 : List Step) (s : omap_crtc W)
    (h0 : s.pending_applies = [] ∧ s.queued_applies = [] ∧ s.go_bit_set = false)
    (hA : (s.applies A).queued = false) (ht : s.trace = t0)
    (hi0 : ∀ st ∈ i0, ∀ r, st ≠ Step.submit r) :
    ((run s i0).pending_applies = [] ∧ (run s i0).queued_applies = [] ∧
      (run s i0).go_bit_set = false) ∧ ((run s i0).applies A).queued = false ∧
    ∃ ev, (run s i0).trace = t0 ++ ev ∧
      ∀ r, Event.pre_apply r ∉ ev ∧ Event.post_apply r ∉ ev := by
  refine run_induction
    (fun t => (t.pending_applies = [] ∧ t.queued_applies = [] ∧ t.go_bit_set = false) ∧
      (t.applies A).queued = false ∧
      ∃ ev, t.trace = t0 ++ ev ∧ ∀ r, Event.pre_apply r ∉ ev ∧ Event.post_apply r ∉ ev)
    (fun st => ∀ r, st ≠ Step.submit r) ?_ i0 s
    ⟨h0, hA, [], by simp [ht], fun r => by simp⟩ hi0
  rintro t st ⟨⟨hp, hq, hg⟩, hf, ev, htr, hev⟩ hst
  have hem : ∀ r, Event.pre_apply r ∉ emitted t st ∧ Event.post_apply r ∉ emitted t st := by
    intro r
    constructor
    · intro h
      obtain ⟨_, _, hm⟩ := pre_emitted _ _ _ h
      rw [hq] at hm; cases hm
    · intro h
      obtain ⟨_, _, hm⟩ := post_emitted _ _ _ h
      rw [hp] at hm; cases hm
  have htr2 : ∃ ev2, (step t st).trace = t0 ++ ev2 ∧
      ∀ r, Event.pre_apply r ∉ ev2 ∧ Event.post_apply r ∉ ev2 :=
    ⟨ev ++ emitted t st, by rw [step_trace, htr, List.append_assoc],
      fun r => by simp [hev r, hem r]⟩
  cases st with
  | submit r => exact absurd rfl (hst r)
  | worker en =>
    obtain ⟨a, b, c, d⟩ := step_worker_idle t en hg
    refine ⟨⟨by rw [b, hq], c, by rw [a, hq]; rfl⟩, ?_, htr2⟩
    rw [d A, hq]; simpa using hf
  | irq busy =>
    refine ⟨⟨by rw [step_irq_pending_applies, hp], by rw [step_irq_queued_applies, hq],
      by rw [step_irq_go_bit_set, hg]; rfl⟩, by rw [step_irq_applies]; exact hf, htr2⟩

/-! ## Callbacks of one worker run -/

theorem callbacks_append (l m : List Event) :
    callbacks (l ++ m) = callbacks l ++ callbacks m := by
  induction l with
  | nil => rfl
  | cons e l ih => cases e <;> simp [callbacks, ih]

@[simp] theorem callbacks_map_post (l : List Req) :
    callbacks (l.map Event.post_apply) = l.map Event.post_apply := by
  induction l with
  | nil => rfl
  | cons a l ih => simp [callbacks, ih]

@[simp] theorem callbacks_map_pre (l : List Req) :
    callbacks (l.map Event.pre_apply) = l.map Event.pre_apply := by
  induction l with
  | nil => rfl
  | cons a l ih => simp [callbacks, ih]

theorem post_applied_append (l m : List Event) :
    post_applied (l ++ m) = post_applied l ++ post_applied m := by
  induction l with
  | nil => rfl
  | cons e l ih => cases e <;> simp [post_applied, ih]

@[simp] theorem post_applied_map_post (l : List Req) :
    post_applied (l.map Event.post_apply) = l := by
  induction l with
  | nil => rfl
  | cons a l ih => simp [post_applied, ih]

@[simp] theorem post_applied_map_pre (l : List Req) :
    post_applied (l.map Event.pre_apply) = [] := by
  induction l with
  | nil => rfl
  | cons a l ih => simp [post_applied, ih]

theorem finish_pending_world (l : List Req) (s : omap_crtc W) :
    (finish_pending l s).world
      = l.foldl (fun w r => (s.applies r).post_apply w) s.world := by
  induction l generalizing s with
  | nil => rfl
  | cons a n ih => simp [finish_pending, ih]

theorem handle_queued_world (l : List Req) (s : omap_crtc W) :
    (handle_queued l s).world
      = l.foldl (fun w r => (s.applies r).pre_apply w) s.world := by
  induction l generalizing s with
  | nil => rfl
  | cons a n ih => simp [handle_queued, ih]

theorem apply_worker_world (en : Bool) (s : omap_crtc W) (h : s.go_bit_set = false) :
    (apply_worker en s).world
      = s.queued_applies.foldl (fun w r => (s.applies r).pre_apply w)
          (s.pending_applies.foldl (fun w r => (s.applies r).post_apply w) s.world) := by
  cases hq : s.queued_applies <;> cases en <;>
    simp [apply_worker, dispc_runtime_get, dispc_runtime_put, h, hq, queue_work,
      omap_irq_register, dispc_mgr_go, handle_queued_world, finish_pending_world]

theorem apply_worker_apply_irq_registered (en : Bool) (s : omap_crtc W)
    (h : s.go_bit_set = false) :
    (apply_worker en s).apply_irq_registered
      = if s.queued_applies ≠ [] ∧ en = true then true else s.apply_irq_registered := by
  cases hq : s.queued_applies <;> cases en <;>
    simp [apply_worker, dispc_runtime_get, dispc_runtime_put, h, hq, queue_work,
      omap_irq_register, dispc_mgr_go]

theorem apply_worker_apply_work_pending (en : Bool) (s : omap_crtc W)
    (h : s.go_bit_set = false) :
    (apply_worker en s).apply_work_pending
      = if s.queued_applies ≠ [] ∧ en = false then true else s.apply_work_pending := by
  cases hq : s.queued_applies <;> cases en <;>
    simp [apply_worker, dispc_runtime_get, dispc_runtime_put, h, hq, queue_work,
      omap_irq_register, dispc_mgr_go]

/-- Steps other than worker runs, taken with `go_bit_set` clear, leave it clear
and leave `pending_applies` alone. -/
theorem no_worker_stable (m : List Step) (s : omap_crtc W)
    (h : s.go_bit_set = false) (hm : ∀ st ∈ m, ∀ en, st ≠ Step.worker en) :
    (run s m).go_bit_set = false ∧ (run s m).pending_applies = s.pending_applies := by
  refine run_induction
    (fun t => t.go_bit_set = false ∧ t.pending_applies = s.pending_applies)
    (fun st => ∀ en, st ≠ Step.worker en) ?_ m s ⟨h, rfl⟩ hm
  intro t st ⟨hg, hp⟩ hst
  cases st with
  | submit r =>
    exact ⟨by rw [step_submit_go_bit_set, hg], by rw [step_submit_pending_applies, hp]⟩
  | worker en => exact absurd rfl (hst en)
  | irq busy =>
    exact ⟨by rw [step_irq_go_bit_set, hg]; rfl, by rw [step_irq_pending_applies, hp]⟩

/-! ## The flush loop -/

theorem step_submit_apply_work_pending (s : omap_crtc W) (r : Req) :
    (step s (Step.submit r)).apply_work_pending
      = if (s.applies r).queued = false ∧ s.pending_applies = [] then true
        else s.apply_work_pending := by
  cases hf : (s.applies r).queued <;> cases hp : s.pending_applies <;>
    simp [step, omap_crtc_apply, hf, hp, queue_work]

theorem step_submit_apply_irq_registered (s : omap_crtc W) (r : Req) :
    (step s (Step.submit r)).apply_irq_registered = s.apply_irq_registered := by
  cases hf : (s.applies r).queued <;> cases hp : s.pending_applies <;>
    simp [step, omap_crtc_apply, hf, hp, queue_work]

theorem step_irq_apply_work_pending (s : omap_crtc W) (busy : Bool) :
    (step s (Step.irq busy)).apply_work_pending
      = if s.go_bit_set = true ∧ busy = false then true else s.apply_work_pending := by
  cases hg : s.go_bit_set <;> cases busy <;>
    simp [step, omap_crtc_apply_irq, hg, queue_work, omap_irq_unregister]

theorem step_irq_apply_irq_registered (s : omap_crtc W) (busy : Bool) :
    (step s (Step.irq busy)).apply_irq_registered
      = if s.go_bit_set = true ∧ busy = false then false else s.apply_irq_registered := by
  cases hg : s.go_bit_set <;> cases busy <;>
    simp [step, omap_crtc_apply_irq, hg, queue_work, omap_irq_unregister]

theorem step_worker_idle_bits (s : omap_crtc W) (en : Bool) (h : s.go_bit_set = false) :
    (step s (Step.worker en)).apply_work_pending
      = (if s.queued_applies ≠ [] ∧ en = false then true else false) ∧
    (step s (Step.worker en)).apply_irq_registered
      = (if s.queued_applies ≠ [] ∧ en = true then true else s.apply_irq_registered) := by
  simp only [step]
  rw [apply_worker_apply_work_pending _ _ (by simpa using h),
    apply_worker_apply_irq_registered _ _ (by simpa using h)]
  exact ⟨rfl, rfl⟩

theorem step_worker_busy_bits (s : omap_crtc W) (en : Bool) (h : s.go_bit_set = true) :
    (step s (Step.worker en)).apply_irq_registered = s.apply_irq_registered := by
  simp only [step]
  rw [apply_worker_busy _ _ (by simpa using h)]

/-- Queued or in-flight work is never left without the worker scheduled or a
GO outstanding. -/
theorem not_stuck_step (s : omap_crtc W) (st : Step)
    (hI : s.queued_applies ≠ [] ∨ s.pending_applies ≠ [] →
      s.apply_work_pending = true ∨ s.go_bit_set = true) :
    (step s st).queued_applies ≠ [] ∨ (step s st).pending_applies ≠ [] →
      (step s st).apply_work_pending = true ∨ (step s st).go_bit_set = true := by
  cases st with
  | submit r =>
    rw [step_submit_queued_applies, step_submit_pending_applies,
      step_submit_apply_work_pending, step_submit_go_bit_set]
    cases hf : (s.applies r).queued
    · cases hp : s.pending_applies with
      | nil => intro _; simp
      | cons a l =>
        intro _
        have := hI (Or.inr (by rw [hp]; simp))
        simpa using this
    · intro h
      have := hI (by simpa using h)
      simpa using this
  | irq busy =>
    rw [step_irq_queued_applies, step_irq_pending_applies, step_irq_apply_work_pending,
      step_irq_go_bit_set]
    intro h
    cases hg : s.go_bit_set
    · have := hI h
      rw [hg] at this
      simpa using this
    · cases busy <;> simp
  | worker en =>
    cases hg : s.go_bit_set
    · obtain ⟨a, b, c, _⟩ := step_worker_idle s en hg
      obtain ⟨d, _⟩ := step_worker_idle_bits s en hg
      rw [a, b, c, d]
      intro h
      cases hq : s.queued_applies with
      | nil => rw [hq] at h; simp at h
      | cons x n => cases en <;> simp
    · obtain ⟨a, _, _, _⟩ := step_worker_busy s en hg
      intro _
      exact Or.inr a

/-- A set `go_bit_set` comes with requests in flight and `apply_irq`
registered. -/
theorem go_handshake_step (s : omap_crtc W) (st : Step)
    (hJ : s.go_bit_set = true → s.pending_applies ≠ [] ∧ s.apply_irq_registered = true) :
    (step s st).go_bit_set = true →
      (step s st).pending_applies ≠ [] ∧ (step s st).apply_irq_registered = true := by
  cases st with
  | submit r =>
    rw [step_submit_go_bit_set, step_submit_pending_applies, step_submit_apply_irq_registered]
    exact hJ
  | irq busy =>
    rw [step_irq_go_bit_set, step_irq_pending_applies, step_irq_apply_irq_registered]
    intro h
    cases hg : s.go_bit_set
    · rw [hg] at h; simp at h
    · cases busy
      · rw [hg] at h; simp at h
      · simpa using hJ hg
  | worker en =>
    cases hg : s.go_bit_set
    · obtain ⟨a, b, _, _⟩ := step_worker_idle s en hg
      obtain ⟨_, d⟩ := step_worker_idle_bits s en hg
      rw [a, b, d]
      intro h
      cases hq : s.queued_applies with
      | nil => rw [hq] at h; simp at h
      | cons x n =>
        cases en
        · simp at h
        · simp
    · obtain ⟨_, b, _, _⟩ := step_worker_busy s en hg
      rw [b, step_worker_busy_bits s en hg]
      intro _
      exact hJ hg

/-- No step taken with `go_bit_set` set changes `pending_applies`. -/
theorem pending_frozen_step (s : omap_crtc W) (st : Step) (h : s.go_bit_set = true) :
    (step s st).pending_applies = s.pending_applies := by
  cases st with
  | submit r => exact step_submit_pending_applies s r
  | irq busy => exact step_irq_pending_applies s busy
  | worker en => exact (step_worker_busy s en h).2.1

theorem pending_frozen_run (q : List Step) (s : omap_crtc W)
    (h : ∀ q1 q2, q = q1 ++ q2 → q2 ≠ [] → (run s q1).go_bit_set = true) :
    (run s q).pending_applies = s.pending_applies := by
  induction q generalizing s with
  | nil => rfl
  | cons st l ih =>
    have h0 : s.go_bit_set = true := h [] (st :: l) rfl (by simp)
    rw [run_cons, ih (step s st), pending_frozen_step s st h0]
    intro q1 q2 e hq2
    have := h (st :: q1) q2 (by rw [e]; rfl) hq2
    simpa using this

/-! ## Submit -/

/-- C1: `omap_crtc_apply` on a request whose `queued` flag is set returns 0 and
leaves the whole state (both lists, all flags, `go_bit_set`, the pending bit of
the work and the call trace) as it was. -/
theorem omap_crtc_apply_queued_noop (s : omap_crtc W) (apply : Req)
    (h : (s.applies apply).queued = true) :
    omap_crtc_apply s apply = (0, s) := by
  simp [omap_crtc_apply, h]

/-- C1 at a concrete state: request 7 is submitted twice on the idle crtc. -/
theorem omap_crtc_apply_queued_noop_witness :
    (((omap_crtc_apply idle_crtc 7).2).applies 7).queued = true ∧
    omap_crtc_apply (omap_crtc_apply idle_crtc 7).2 7
      = (0, (omap_crtc_apply idle_crtc 7).2) :=
  ⟨by decide, omap_crtc_apply_queued_noop _ 7 (by decide)⟩

/-- C2: `omap_crtc_apply` on a request whose `queued` flag is clear returns 0,
sets the flag, appends the request at the tail of `queued_applies` and leaves
`pending_applies` and `go_bit_set` alone. -/
theorem omap_crtc_apply_enqueues (s : omap_crtc W) (apply : Req)
    (h : (s.applies apply).queued = false) :
    (omap_crtc_apply s apply).1 = 0 ∧
    (((omap_crtc_apply s apply).2).applies apply).queued = true ∧
    (omap_crtc_apply s apply).2.queued_applies = s.queued_applies ++ [apply] ∧
    (omap_crtc_apply s apply).2.pending_applies = s.pending_applies ∧
    (omap_crtc_apply s apply).2.go_bit_set = s.go_bit_set := by
  cases hp : s.pending_applies <;>
    simp [omap_crtc_apply, h, hp, queue_work, set_queued]

/-- C2 at a concrete state: request 7 submitted on the idle crtc. -/
theorem omap_crtc_apply_enqueues_witness :
    (idle_crtc.applies 7).queued = false ∧
    (omap_crtc_apply idle_crtc 7).1 = 0 ∧
    (((omap_crtc_apply idle_crtc 7).2).applies 7).queued = true ∧
    (omap_crtc_apply idle_crtc 7).2.queued_applies = idle_crtc.queued_applies ++ [7] ∧
    (omap_crtc_apply idle_crtc 7).2.pending_applies = idle_crtc.pending_applies ∧
    (omap_crtc_apply idle_crtc 7).2.go_bit_set = idle_crtc.go_bit_set :=
  ⟨by decide, omap_crtc_apply_enqueues idle_crtc 7 (by decide)⟩

/-- C3: when `omap_crtc_apply` enqueues a request, it calls `queue_work` for
`apply_work` exactly when `pending_applies` is empty at the call; when the list
is non-empty the call makes no call at all and the pending bit of the work
keeps its value. -/
theorem omap_crtc_apply_kicks_worker (s : omap_crtc W) (apply : Req)
    (h : (s.applies apply).queued = false) :
    ((omap_crtc_apply s apply).2.trace = s.trace ++ [Event.queue_work s.go_bit_set]
        ↔ s.pending_applies = []) ∧
    (s.pending_applies = [] → (omap_crtc_apply s apply).2.apply_work_pending = true) ∧
    (s.pending_applies ≠ [] →
      (omap_crtc_apply s apply).2.trace = s.trace ∧
      (omap_crtc_apply s apply).2.apply_work_pending = s.apply_work_pending) := by
  cases hp : s.pending_applies <;>
    simp [omap_crtc_apply, h, hp, queue_work]

/-- C3 at a concrete state: the first submission on the idle crtc kicks the
worker. -/
theorem omap_crtc_apply_kicks_worker_witness :
    (idle_crtc.applies 7).queued = false ∧
    (omap_crtc_apply idle_crtc 7).2.trace = idle_crtc.trace ++ [Event.queue_work false] :=
  ⟨by decide,
    (omap_crtc_apply_kicks_worker idle_crtc 7 (by decide)).1.mpr (by decide)⟩

/-! ## Invariants of the pipeline -/

/-- C4: at most one hardware GO is outstanding.  From every start state (the
idle initial state included) and after every sequence of submit, worker and
interrupt steps: (1) only a worker step calls `dispc_mgr_go`, and only when it
is entered with `go_bit_set` clear; (2) between two steps that call
`dispc_mgr_go` there is an interrupt step with `dispc_mgr_go_busy` false that
found `go_bit_set` set and cleared it; (3) a run without such an interrupt
adds at most one `dispc_mgr_go` call to the trace; (4) after a worker run
that called `dispc_mgr_go`, and as long as no such interrupt is taken,
`pending_applies` is the list that this worker run moved. -/
theorem at_most_one_go_outstanding (s0 : omap_crtc W) :
    (∀ steps st, Event.dispc_mgr_go ∈ emitted (run s0 steps) st →
      (∃ en, st = Step.worker en) ∧ (run s0 steps).go_bit_set = false) ∧
    (∀ p m st1 st2, Event.dispc_mgr_go ∈ emitted (run s0 p) st1 →
      Event.dispc_mgr_go ∈ emitted (run s0 (p ++ st1 :: m)) st2 →
      ∃ m1 m2, m = m1 ++ Step.irq false :: m2 ∧
        (run s0 (p ++ st1 :: m1)).go_bit_set = true ∧
        (run s0 (p ++ st1 :: m1 ++ [Step.irq false])).go_bit_set = false) ∧
    (∀ steps, (∀ st ∈ steps, st ≠ Step.irq false) →
      (run s0 steps).trace.count Event.dispc_mgr_go
        ≤ s0.trace.count Event.dispc_mgr_go + 1) ∧
    (∀ p q st, Event.dispc_mgr_go ∈ emitted (run s0 p) st →
      (∀ x ∈ q, x ≠ Step.irq false) →
      (run s0 (p ++ st :: q)).pending_applies = (run s0 p).queued_applies) := by
  refine ⟨?_, ?_, ?_, ?_⟩
  · intro steps st h
    obtain ⟨e, hg, _, _⟩ := go_emitted _ st h
    exact ⟨⟨true, e⟩, hg⟩
  · intro p m st1 st2 h1 h2
    obtain ⟨_, _, _, hset⟩ := go_emitted _ st1 h1
    obtain ⟨_, hclr, _, _⟩ := go_emitted _ st2 h2
    rw [run_append, run_cons] at hclr
    obtain ⟨m1, m2, e, a, b⟩ := go_bit_flip m _ hset hclr
    refine ⟨m1, m2, e, ?_, ?_⟩
    · rw [run_append, run_cons]; exact a
    · have : p ++ st1 :: m1 ++ [Step.irq false] = p ++ st1 :: (m1 ++ [Step.irq false]) := by
        simp
      rw [this, run_append, run_cons]; exact b
  · intro steps hsteps
    have h := run_induction
      (fun t : omap_crtc W => t.trace.count Event.dispc_mgr_go = s0.trace.count Event.dispc_mgr_go ∨
        (t.trace.count Event.dispc_mgr_go = s0.trace.count Event.dispc_mgr_go + 1 ∧
          t.go_bit_set = true))
      (fun st => st ≠ Step.irq false)
      (fun t st hI hst => go_count_step _ t st hI hst) steps s0 (Or.inl rfl) hsteps
    rcases h with h | ⟨h, _⟩ <;> omega
  · intro p q st h hq
    obtain ⟨e, hg, _, hset⟩ := go_emitted _ st h
    rw [run_append, run_cons]
    rw [(outstanding_stable q _ hset hq).2]
    subst e
    exact (step_worker_idle _ true hg).2.1

/-- C4 at a concrete run: two submissions and two worker runs on an enabled
channel, no completion; one GO is issued and request 1 stays in flight. -/
theorem at_most_one_go_outstanding_witness :
    Event.dispc_mgr_go ∈ emitted (run idle_crtc [Step.submit 1]) (Step.worker true) ∧
    (run idle_crtc ([Step.submit 1] ++ Step.worker true :: [Step.submit 2, Step.worker true])).pending_applies
      = (run idle_crtc [Step.submit 1]).queued_applies ∧
    (run idle_crtc [Step.submit 1, Step.worker true, Step.submit 2, Step.worker true]).trace.count
        Event.dispc_mgr_go ≤ idle_crtc.trace.count Event.dispc_mgr_go + 1 :=
  ⟨by decide,
   (at_most_one_go_outstanding idle_crtc).2.2.2 [Step.submit 1]
      [Step.submit 2, Step.worker true] (Step.worker true) (by decide) (by decide),
   (at_most_one_go_outstanding idle_crtc).2.2.1
      [Step.submit 1, Step.worker true, Step.submit 2, Step.worker true] (by decide)⟩

/-- C5, as the claim states it, fails: request 7 is submitted, moved in flight
by a worker run and submitted again before the completion; it is then on
`queued_applies` (through `queued_node`) and on `pending_applies` (through
`pending_node`) at once. -/
theorem queued_and_in_flight_counterexample :
    idle_crtc.pending_applies = [] ∧ idle_crtc.queued_applies = [] ∧
    7 ∈ (run idle_crtc [Step.submit 7, Step.worker true, Step.submit 7]).queued_applies ∧
    7 ∈ (run idle_crtc [Step.submit 7, Step.worker true, Step.submit 7]).pending_applies := by
  decide

/-- C5, amended: from a state with both lists empty, after every sequence of
submit, worker and interrupt steps in which no request is submitted while it
is on `pending_applies`, no request is on `queued_applies` and on
`pending_applies` at once. -/
theorem queued_in_flight_disjoint (s0 : omap_crtc W) (steps : List Step)
    (h0 : s0.pending_applies = [] ∧ s0.queued_applies = [])
    (hsub : ∀ p r q, steps = p ++ Step.submit r :: q →
      r ∉ (run s0 p).pending_applies) :
    ∀ r, ¬ (r ∈ (run s0 steps).queued_applies ∧ r ∈ (run s0 steps).pending_applies) :=
  disjoint_run steps s0 (by simp [h0.1]) hsub

/-- C5 amended, at a concrete run: request 7 goes through a whole round and is
submitted again once it has left `pending_applies`. -/
theorem queued_in_flight_disjoint_witness :
    7 ∈ (run idle_crtc [Step.submit 7, Step.worker true, Step.irq false,
          Step.worker true, Step.submit 7]).queued_applies ∧
    ¬ (7 ∈ (run idle_crtc [Step.submit 7, Step.worker true, Step.irq false,
              Step.worker true, Step.submit 7]).queued_applies ∧
       7 ∈ (run idle_crtc [Step.submit 7, Step.worker true, Step.irq false,
              Step.worker true, Step.submit 7]).pending_applies) :=
  ⟨by decide, queued_in_flight_disjoint idle_crtc
    [Step.submit 7, Step.worker true, Step.irq false, Step.worker true, Step.submit 7]
    ⟨rfl, rfl⟩
    (by
      intro p r q e
      have hlen := congrArg List.length e
      simp only [List.length_append, List.length_cons, List.length_nil] at hlen
      match p, e with
      | [], e => simp [idle_crtc]
      | [_], e => simp at e
      | [_, _], e => simp at e
      | [_, _, _], e => simp at e
      | [a, b, c, d], e =>
        simp only [List.cons_append, List.nil_append, List.cons.injEq] at e
        obtain ⟨rfl, rfl, rfl, rfl, e5, _⟩ := e
        cases e5
        decide
      | _ :: _ :: _ :: _ :: _ :: _, e => simp at hlen; omega) 7⟩

/-- C6: from a state with both lists empty and every `queued` flag clear,
after every sequence of submit, worker and interrupt steps no request occurs
twice on `queued_applies` and no request occurs twice on `pending_applies`. -/
theorem no_duplicates_in_lists (s0 : omap_crtc W) (steps : List Step)
    (h0 : s0.pending_applies = [] ∧ s0.queued_applies = [])
    (hflags : ∀ r, (s0.applies r).queued = false) :
    (run s0 steps).queued_applies.Nodup ∧ (run s0 steps).pending_applies.Nodup := by
  have hc : Consistent s0 := by
    refine ⟨fun r => ?_, by rw [h0.2]; exact List.nodup_nil, by rw [h0.1]; exact List.nodup_nil⟩
    simp [h0.2, hflags r]
  exact (consistent_run steps s0 hc).2

/-- C6 at a concrete run with repeated submissions of the same requests. -/
theorem no_duplicates_in_lists_witness :
    (run idle_crtc [Step.submit 1, Step.submit 1, Step.submit 2, Step.worker true,
        Step.submit 1, Step.submit 2, Step.submit 1]).queued_applies.Nodup ∧
    (run idle_crtc [Step.submit 1, Step.submit 1, Step.submit 2, Step.worker true,
        Step.submit 1, Step.submit 2, Step.submit 1]).pending_applies.Nodup :=
  no_duplicates_in_lists idle_crtc _ ⟨rfl, rfl⟩ (fun _ => rfl)

/-- C7: take any run `p` from any start state, and a worker run entered after
it with `go_bit_set` clear while `r` is queued (the worker run that moves `r`
in flight).  Then `r` is in flight after it, `pre_apply` of `r` is called in
it, and before the `dispc_mgr_go` call of that run.  If that run calls
`dispc_mgr_go`, then whenever a later step calls `post_apply` of `r`, an
interrupt step with `dispc_mgr_go_busy` false that found `go_bit_set` set and
cleared it lies between the two. -/
theorem callbacks_around_go (s0 : omap_crtc W) (p : List Step) (en : Bool) (r : Req)
    (hg : (run s0 p).go_bit_set = false) (hr : r ∈ (run s0 p).queued_applies) :
    r ∈ (run s0 (p ++ [Step.worker en])).pending_applies ∧
    Event.pre_apply r ∈ emitted (run s0 p) (Step.worker en) ∧
    Precedes (Event.pre_apply r) Event.dispc_mgr_go (emitted (run s0 p) (Step.worker en)) ∧
    (Event.dispc_mgr_go ∈ emitted (run s0 p) (Step.worker en) →
      ∀ q st, Event.post_apply r ∈ emitted (run s0 (p ++ Step.worker en :: q)) st →
        ∃ m1 m2, q = m1 ++ Step.irq false :: m2 ∧
          (run s0 (p ++ Step.worker en :: m1)).go_bit_set = true ∧
          (run s0 (p ++ Step.worker en :: m1 ++ [Step.irq false])).go_bit_set = false) := by
  refine ⟨?_, (pre_before_go _ en r hg hr).1, (pre_before_go _ en r hg hr).2, ?_⟩
  · rw [run_append, run_cons, run_nil, (step_worker_idle _ en hg).2.1]
    exact hr
  · intro hgo q st hpost
    obtain ⟨_, _, _, hset⟩ := go_emitted _ _ hgo
    obtain ⟨_, hclr, _⟩ := post_emitted _ st r hpost
    rw [run_append, run_cons] at hclr
    obtain ⟨m1, m2, e, a, b⟩ := go_bit_flip q _ hset hclr
    refine ⟨m1, m2, e, ?_, ?_⟩
    · rw [run_append, run_cons]; exact a
    · have : p ++ Step.worker en :: m1 ++ [Step.irq false]
          = p ++ Step.worker en :: (m1 ++ [Step.irq false]) := by simp
      rw [this, run_append, run_cons]; exact b

/-- C7 at a concrete run: request 3 is submitted, a worker run issues the GO,
a premature interrupt is ignored, the completion is seen and the next worker
run calls `post_apply`. -/
theorem callbacks_around_go_witness :
    Event.pre_apply 3 ∈ emitted (run idle_crtc [Step.submit 3]) (Step.worker true) ∧
    Event.dispc_mgr_go ∈ emitted (run idle_crtc [Step.submit 3]) (Step.worker true) ∧
    Event.post_apply 3 ∈ emitted (run idle_crtc ([Step.submit 3] ++ Step.worker true ::
        [Step.irq true, Step.irq false])) (Step.worker false) ∧
    ∃ m1 m2, [Step.irq true, Step.irq false] = m1 ++ Step.irq false :: m2 ∧
      (run idle_crtc ([Step.submit 3] ++ Step.worker true :: m1)).go_bit_set = true ∧
      (run idle_crtc ([Step.submit 3] ++ Step.worker true :: m1
        ++ [Step.irq false])).go_bit_set = false :=
  ⟨by decide, by decide, by decide,
   (callbacks_around_go idle_crtc [Step.submit 3] true 3 (by decide) (by decide)).2.2.2
      (by decide) [Step.irq true, Step.irq false] (Step.worker false) (by decide)⟩

/-- C8: first in, first out.  On an idle pipe (both lists empty, `go_bit_set`
clear, the `queued` flag of `A` clear) let `A` and then a different request
`B` be submitted, with any worker and interrupt steps before the first
submission and any steps at all between and after the two.  In the calls
made since the idle state every `pre_apply` of `B` comes after a `pre_apply`
of `A`, and every `post_apply` of `B` comes after a `post_apply` of `A`. -/
theorem fifo_callbacks (s0 : omap_crtc W) (A B : Req) (i0 i1 i2 : List Step)
    (h0 : s0.pending_applies = [] ∧ s0.queued_applies = [] ∧ s0.go_bit_set = false)
    (hA : (s0.applies A).queued = false) (hAB : A ≠ B)
    (hi0 : ∀ st ∈ i0, ∀ r, st ≠ Step.submit r) :
    Precedes (Event.pre_apply A) (Event.pre_apply B)
      ((run s0 (i0 ++ Step.submit A :: i1 ++ Step.submit B :: i2)).trace.drop
        s0.trace.length) ∧
    Precedes (Event.post_apply A) (Event.post_apply B)
      ((run s0 (i0 ++ Step.submit A :: i1 ++ Step.submit B :: i2)).trace.drop
        s0.trace.length) := by
  obtain ⟨⟨hp, hq, hg⟩, hf, ev, htr, hev⟩ := idle_stays_idle A s0.trace i0 s0 h0 hA rfl hi0
  have hinv : FifoInv s0.trace A B (step (run s0 i0) (Step.submit A)) := by
    refine ⟨ev ++ emitted (run s0 i0) (Step.submit A),
      by rw [step_trace, htr, List.append_assoc], ?_⟩
    have hem : emitted (run s0 i0) (Step.submit A) = [Event.queue_work false] := by
      rw [emitted_submit]; simp [hf, hp, hg]
    rw [hem]
    refine ⟨precedes_of_not_mem _ _ _ (by simp [(hev B).1]),
      precedes_of_not_mem _ _ _ (by simp [(hev B).2]), Or.inl ?_⟩
    refine ⟨by rw [step_submit_go_bit_set, hg], by rw [step_submit_pending_applies, hp],
      ?_, ?_, by simp [(hev B).1], by simp [(hev B).2]⟩
    · rw [step_submit_queued_applies]; simp [hf]
    · rw [step_submit_queued_applies, hq]
      simp only [hf, Bool.false_eq_true, if_false, List.nil_append, precedes_cons]
      exact ⟨hAB, Or.inl trivial⟩
  have hrun := run_induction (FifoInv s0.trace A B) (fun _ => True)
    (fun t st hI _ => fifo_step s0.trace A B t st hI) (i1 ++ Step.submit B :: i2) _ hinv
    (fun _ _ => trivial)
  have heq : run s0 (i0 ++ Step.submit A :: i1 ++ Step.submit B :: i2)
      = run (step (run s0 i0) (Step.submit A)) (i1 ++ Step.submit B :: i2) := by
    have : i0 ++ Step.submit A :: i1 ++ Step.submit B :: i2
        = i0 ++ Step.submit A :: (i1 ++ Step.submit B :: i2) := by simp
    rw [this, run_append, run_cons]
  rw [heq]
  obtain ⟨ev2, htr2, h1, h2, _⟩ := hrun
  rw [htr2, List.drop_left]
  exact ⟨h1, h2⟩

/-- C8 at a concrete interleaving: request 1 goes in flight alone, request 2
follows in the next batch. -/
theorem fifo_callbacks_witness :
    Precedes (Event.pre_apply 1) (Event.pre_apply 2)
      ((run idle_crtc ([Step.worker true, Step.irq false] ++ Step.submit 1 ::
        [Step.worker true] ++ Step.submit 2 ::
        [Step.irq false, Step.worker true, Step.irq false, Step.worker true])).trace.drop
        idle_crtc.trace.length) ∧
    Precedes (Event.post_apply 1) (Event.post_apply 2)
      ((run idle_crtc ([Step.worker true, Step.irq false] ++ Step.submit 1 ::
        [Step.worker true] ++ Step.submit 2 ::
        [Step.irq false, Step.worker true, Step.irq false, Step.worker true])).trace.drop
        idle_crtc.trace.length) :=
  fifo_callbacks idle_crtc 1 2 [Step.worker true, Step.irq false] [Step.worker true]
    [Step.irq false, Step.worker true, Step.irq false, Step.worker true]
    ⟨rfl, rfl, rfl⟩ rfl (by decide)
    (by
      intro st hst r
      simp only [List.mem_cons, List.mem_singleton, List.not_mem_nil, or_false] at hst
      rcases hst with rfl | rfl <;> simp)

/-- C9: on an idle pipe (both lists empty, `go_bit_set` clear, the `queued`
flag of `R` clear) two calls of `omap_crtc_apply` with `R` before any worker
run leave `queued_applies = [R]`; a worker run, the completion interrupt when
that run left `go_bit_set` set (a GO was issued), and the next worker run then
call `pre_apply` of `R` exactly once and `post_apply` of `R` exactly once. -/
theorem double_submit_once (s0 : omap_crtc W) (R : Req) (en1 en2 : Bool)
    (h0 : s0.pending_applies = [] ∧ s0.queued_applies = [] ∧ s0.go_bit_set = false)
    (hR : (s0.applies R).queued = false) :
    (omap_crtc_apply (omap_crtc_apply s0 R).2 R).2.queued_applies = [R] ∧
    ((run s0 ([Step.submit R, Step.submit R, Step.worker en1]
        ++ (if (run s0 [Step.submit R, Step.submit R, Step.worker en1]).go_bit_set = true
            then [Step.irq false] else [])
        ++ [Step.worker en2])).trace.drop s0.trace.length).count (Event.pre_apply R) = 1 ∧
    ((run s0 ([Step.submit R, Step.submit R, Step.worker en1]
        ++ (if (run s0 [Step.submit R, Step.submit R, Step.worker en1]).go_bit_set = true
            then [Step.irq false] else [])
        ++ [Step.worker en2])).trace.drop s0.trace.length).count (Event.post_apply R) = 1 := by
  obtain ⟨hp, hq, hg⟩ := h0
  cases en1 <;> cases en2 <;>
    simp [run, step, omap_crtc_apply, apply_worker, omap_crtc_apply_irq, queue_work,
      omap_irq_register, omap_irq_unregister, dispc_mgr_go, dispc_runtime_get,
      dispc_runtime_put, finish_pending, handle_queued, set_queued, hp, hq, hg, hR,
      List.count_cons]

/-- C9 at a concrete run: request 5 submitted twice on the idle crtc, channel
enabled at the first worker run. -/
theorem double_submit_once_witness :
    (omap_crtc_apply (omap_crtc_apply idle_crtc 5).2 5).2.queued_applies = [5] ∧
    ((run idle_crtc ([Step.submit 5, Step.submit 5, Step.worker true]
        ++ (if (run idle_crtc [Step.submit 5, Step.submit 5, Step.worker true]).go_bit_set = true
            then [Step.irq false] else [])
        ++ [Step.worker false])).trace.drop idle_crtc.trace.length).count
          (Event.pre_apply 5) = 1 ∧
    ((run idle_crtc ([Step.submit 5, Step.submit 5, Step.worker true]
        ++ (if (run idle_crtc [Step.submit 5, Step.submit 5, Step.worker true]).go_bit_set = true
            then [Step.irq false] else [])
        ++ [Step.worker false])).trace.drop idle_crtc.trace.length).count
          (Event.post_apply 5) = 1 :=
  double_submit_once idle_crtc 5 true false ⟨rfl, rfl, rfl⟩ rfl

/-! ## The counter scenario -/

/-- C10, as the claim states it, fails: after the submission, one worker run
on the enabled channel and the completion interrupt, the first counter is 1
and the second counter is still 0; `omap_crtc_apply_irq` calls no callback. -/
theorem completion_irq_counterexample :
    (run idle_crtc [Step.submit 1, Step.worker true]).world = (1, 0) ∧
    (run idle_crtc [Step.submit 1, Step.worker true, Step.irq false]).world.2 = 0 ∧
    (run idle_crtc [Step.submit 1, Step.worker true, Step.irq false]).world.2 ≠ 1 := by
  decide

/-- C10, amended: on an idle pipe with both counters 0, submit a request `R1`
whose `pre_apply` increments the first counter `P` and whose `post_apply`
increments the second counter `Q`.  After one worker run on the enabled
channel `P = 1` and `Q = 0`.  After the completion interrupt
(`dispc_mgr_go_busy` false) the counters are unchanged, `go_bit_set` is clear
and the worker is scheduled.  After the worker run that follows, `P = 1` and
`Q = 1`. -/
theorem counter_scenario (s0 : omap_crtc (Nat × Nat)) (R1 : Req) (en : Bool)
    (h0 : s0.pending_applies = [] ∧ s0.queued_applies = [] ∧ s0.go_bit_set = false)
    (hw : s0.world = (0, 0)) (hR : s0.applies R1 = counting_apply) :
    (run s0 [Step.submit R1, Step.worker true]).world = (1, 0) ∧
    (run s0 [Step.submit R1, Step.worker true, Step.irq false]).world = (1, 0) ∧
    (run s0 [Step.submit R1, Step.worker true, Step.irq false]).go_bit_set = false ∧
    (run s0 [Step.submit R1, Step.worker true, Step.irq false]).apply_work_pending = true ∧
    (run s0 [Step.submit R1, Step.worker true, Step.irq false, Step.worker en]).world
      = (1, 1) := by
  obtain ⟨hp, hq, hg⟩ := h0
  cases en <;>
    simp [run, step, omap_crtc_apply, apply_worker, omap_crtc_apply_irq, queue_work,
      omap_irq_register, omap_irq_unregister, dispc_mgr_go, dispc_runtime_get,
      dispc_runtime_put, finish_pending, handle_queued, set_queued, hp, hq, hg, hR, hw,
      counting_apply]

/-- C10 amended, on the idle crtc with request 1. -/
theorem counter_scenario_witness :
    (run idle_crtc [Step.submit 1, Step.worker true]).world = (1, 0) ∧
    (run idle_crtc [Step.submit 1, Step.worker true, Step.irq false]).world = (1, 0) ∧
    (run idle_crtc [Step.submit 1, Step.worker true, Step.irq false]).go_bit_set = false ∧
    (run idle_crtc [Step.submit 1, Step.worker true, Step.irq false]).apply_work_pending = true ∧
    (run idle_crtc [Step.submit 1, Step.worker true, Step.irq false, Step.worker true]).world
      = (1, 1) :=
  counter_scenario idle_crtc 1 true ⟨rfl, rfl, rfl⟩ rfl rfl

/-! ## The completion handler -/

/-- C11: when `omap_crtc_apply_irq` runs with `go_bit_set` set and
`dispc_mgr_go_busy` false, it unregisters `apply_irq`, then clears
`go_bit_set`, then calls `queue_work` for `apply_work`, once.  The calls the
handler makes are exactly `__omap_irq_unregister`, made while `go_bit_set` is
still set, followed by `queue_work`, made when `go_bit_set` is already clear;
no `queue_work` is made with the flag set; and on return the irq is
unregistered, the flag is clear and the work is pending. -/
theorem apply_irq_completes (s : omap_crtc W) (h : s.go_bit_set = true) :
    (omap_crtc_apply_irq false s).trace
      = s.trace ++ [Event.omap_irq_unregister true, Event.queue_work false] ∧
    ((omap_crtc_apply_irq false s).trace.drop s.trace.length).count
      (Event.queue_work false) = 1 ∧
    ((omap_crtc_apply_irq false s).trace.drop s.trace.length).count
      (Event.queue_work true) = 0 ∧
    (omap_crtc_apply_irq false s).apply_irq_registered = false ∧
    (omap_crtc_apply_irq false s).go_bit_set = false ∧
    (omap_crtc_apply_irq false s).apply_work_pending = true := by
  simp [omap_crtc_apply_irq, h, queue_work, omap_irq_unregister, List.count_cons]

/-- C11 at the crtc with a GO outstanding. -/
theorem apply_irq_completes_witness :
    busy_crtc.go_bit_set = true ∧
    (omap_crtc_apply_irq false busy_crtc).trace
      = busy_crtc.trace ++ [Event.omap_irq_unregister true, Event.queue_work false] ∧
    (omap_crtc_apply_irq false busy_crtc).go_bit_set = false :=
  ⟨rfl, (apply_irq_completes busy_crtc rfl).1,
    (apply_irq_completes busy_crtc rfl).2.2.2.2.1⟩

/-- C12: when `omap_crtc_apply_irq` runs with `go_bit_set` clear, or with
`dispc_mgr_go_busy` true, the state it returns is the state it was given
(flags, irq registration, lists, pending bit of the work and call trace); and
any number of interrupts in a row taken with `go_bit_set` clear, whatever
`dispc_mgr_go_busy` answers, leave the state as it was. -/
theorem apply_irq_spurious (s : omap_crtc W) :
    (∀ go_busy, s.go_bit_set = false ∨ go_busy = true →
      omap_crtc_apply_irq go_busy s = s) ∧
    (∀ busys : List Bool, s.go_bit_set = false → run s (busys.map Step.irq) = s) := by
  have h1 : ∀ go_busy, s.go_bit_set = false ∨ go_busy = true →
      omap_crtc_apply_irq go_busy s = s := by
    intro go_busy h
    rcases h with h | h <;> simp [omap_crtc_apply_irq, h]
  refine ⟨h1, ?_⟩
  intro busys hg
  induction busys with
  | nil => rfl
  | cons b l ih =>
    rw [List.map_cons, run_cons]
    have : step s (Step.irq b) = s := h1 b (Or.inl hg)
    rw [this]; exact ih

/-- C12 at concrete states: a premature interrupt while the GO is busy, and
three interrupts in a row on the idle crtc. -/
theorem apply_irq_spurious_witness :
    omap_crtc_apply_irq true busy_crtc = busy_crtc ∧
    run idle_crtc ([false, true, false].map Step.irq) = idle_crtc :=
  ⟨(apply_irq_spurious busy_crtc).1 true (Or.inr rfl),
    (apply_irq_spurious idle_crtc).2 [false, true, false] rfl⟩

/-! ## The worker -/

/-- C13: a worker run entered with `go_bit_set` clear, a non-empty
`queued_applies` and a disabled channel makes the calls `dispc_runtime_get`,
`post_apply` of the requests in flight, `pre_apply` of every queued request in
order, `queue_work`, `dispc_runtime_put`: it neither registers `apply_irq` nor
calls `dispc_mgr_go`, and `go_bit_set` is clear when it calls `queue_work`.  It
moves the queued requests in flight, leaves `go_bit_set` clear and the work
scheduled.  The next worker run, directly or
after any submissions and interrupts, calls `post_apply` for exactly the
requests of that batch, in order. -/
theorem disabled_fast_path (s : omap_crtc W) (hg : s.go_bit_set = false)
    (hq : s.queued_applies ≠ []) :
    (apply_worker false s).trace
      = s.trace ++ (Event.dispc_runtime_get :: s.pending_applies.map Event.post_apply
          ++ s.queued_applies.map Event.pre_apply
          ++ [Event.queue_work false, Event.dispc_runtime_put]) ∧
    (apply_worker false s).pending_applies = s.queued_applies ∧
    (apply_worker false s).queued_applies = [] ∧
    (apply_worker false s).apply_irq_registered = s.apply_irq_registered ∧
    (apply_worker false s).go_bit_set = false ∧
    (apply_worker false s).apply_work_pending = true ∧
    (∀ en, (apply_worker en (apply_worker false s)).trace
      = (apply_worker false s).trace
          ++ (Event.dispc_runtime_get :: s.queued_applies.map Event.post_apply
          ++ [Event.dispc_runtime_put])) ∧
    (∀ m en, (∀ st ∈ m, ∀ en2, st ≠ Step.worker en2) →
      post_applied (emitted (run (apply_worker false s) m) (Step.worker en))
        = s.queued_applies) := by
  have hgo : (apply_worker false s).go_bit_set = false := by
    rw [apply_worker_go_bit_set _ _ hg]; simp
  have hpend := apply_worker_pending_applies false s hg
  have hqueue := apply_worker_queued_applies false s hg
  refine ⟨?_, hpend, hqueue, ?_, hgo, ?_, ?_, ?_⟩
  · rw [apply_worker_trace _ _ hg]; simp [hq]
  · rw [apply_worker_apply_irq_registered _ _ hg]; simp
  · rw [apply_worker_apply_work_pending _ _ hg]; simp [hq]
  · intro en
    rw [apply_worker_trace _ _ hgo, hpend, hqueue]; simp
  · intro m en hm
    obtain ⟨a, b⟩ := no_worker_stable m _ hgo hm
    rw [emitted_worker]
    simp only [a, Bool.false_eq_true, if_false, b, hpend]
    rw [post_applied_append, post_applied_append, List.cons_append]
    have ht : post_applied ((if (run (apply_worker false s) m).queued_applies = [] then []
        else if en = true then [Event.omap_irq_register, Event.dispc_mgr_go]
        else [Event.queue_work false])) = [] := by
      split
      · rfl
      · split <;> rfl
    rw [ht]
    simp [post_applied, post_applied_append]

/-- C13 at a concrete state: requests 1 and 2 queued on the idle crtc, the
channel disabled; another submission comes before the next worker run. -/
theorem disabled_fast_path_witness :
    (apply_worker false (run idle_crtc [Step.submit 1, Step.submit 2])).pending_applies
      = [1, 2] ∧
    post_applied (emitted (run (apply_worker false
        (run idle_crtc [Step.submit 1, Step.submit 2])) [Step.submit 3]) (Step.worker true))
      = (run idle_crtc [Step.submit 1, Step.submit 2]).queued_applies :=
  ⟨by decide,
   (disabled_fast_path (run idle_crtc [Step.submit 1, Step.submit 2]) (by decide)
      (by decide)).2.2.2.2.2.2.2 [Step.submit 3] true (by decide)⟩

/-- C19: a worker run entered with `go_bit_set` set only takes and drops the
runtime-pm reference: the state it returns differs from the state it was given
in the two calls `dispc_runtime_get`, `dispc_runtime_put` alone, so no callback
is called, both lists, every `queued` flag and `go_bit_set` are unchanged,
`apply_irq` is not registered, `dispc_mgr_go` is not called and the work is
not queued again. -/
theorem worker_defers (en : Bool) (s : omap_crtc W) (h : s.go_bit_set = true) :
    apply_worker en s
      = { s with trace := s.trace ++ [Event.dispc_runtime_get, Event.dispc_runtime_put] } ∧
    callbacks ((apply_worker en s).trace.drop s.trace.length) = [] ∧
    (apply_worker en s).queued_applies = s.queued_applies ∧
    (apply_worker en s).pending_applies = s.pending_applies ∧
    (apply_worker en s).applies = s.applies ∧
    (apply_worker en s).go_bit_set = s.go_bit_set ∧
    (apply_worker en s).apply_irq_registered = s.apply_irq_registered ∧
    (apply_worker en s).apply_work_pending = s.apply_work_pending ∧
    (apply_worker en s).world = s.world ∧
    Event.omap_irq_register ∉ (apply_worker en s).trace.drop s.trace.length ∧
    Event.dispc_mgr_go ∉ (apply_worker en s).trace.drop s.trace.length ∧
    (∀ b, Event.queue_work b ∉ (apply_worker en s).trace.drop s.trace.length) := by
  rw [apply_worker_busy en s h]
  simp [callbacks]

/-- C19 at the crtc with a GO outstanding and request 1 queued. -/
theorem worker_defers_witness :
    busy_crtc.go_bit_set = true ∧
    (apply_worker true busy_crtc).queued_applies = [1] ∧
    (apply_worker true busy_crtc).pending_applies = [2] ∧
    (apply_worker true busy_crtc).trace
      = [Event.dispc_runtime_get, Event.dispc_runtime_put] :=
  ⟨rfl, (worker_defers true busy_crtc rfl).2.2.1, (worker_defers true busy_crtc rfl).2.2.2.1,
    by rw [(worker_defers true busy_crtc rfl).1]; rfl⟩

/-- C20: in a worker run entered with `go_bit_set` clear the calls are
`dispc_runtime_get`, then `post_apply` of every request of `pending_applies`
at entry in list order, then `pre_apply` of every request of `queued_applies`
at entry in list order, then the calls of the GO (`omap_irq_register`,
`dispc_mgr_go`) or the `queue_work` or nothing, then `dispc_runtime_put`.  The
callback calls of the run are these `post_apply` followed by these
`pre_apply`; they act on the callers' context in that order; and whatever
comes before a `dispc_mgr_go` of the run contains all of them. -/
theorem worker_batch_order (en : Bool) (s : omap_crtc W) (h : s.go_bit_set = false) :
    (apply_worker en s).trace
      = s.trace ++ (Event.dispc_runtime_get :: s.pending_applies.map Event.post_apply
          ++ s.queued_applies.map Event.pre_apply
          ++ (if s.queued_applies = [] then []
              else if en = true then [Event.omap_irq_register, Event.dispc_mgr_go]
              else [Event.queue_work false])
          ++ [Event.dispc_runtime_put]) ∧
    callbacks ((apply_worker en s).trace.drop s.trace.length)
      = s.pending_applies.map Event.post_apply ++ s.queued_applies.map Event.pre_apply ∧
    (apply_worker en s).world
      = s.queued_applies.foldl (fun w r => (s.applies r).pre_apply w)
          (s.pending_applies.foldl (fun w r => (s.applies r).post_apply w) s.world) ∧
    (∀ a b, (apply_worker en s).trace.drop s.trace.length = a ++ Event.dispc_mgr_go :: b →
      callbacks a
        = s.pending_applies.map Event.post_apply ++ s.queued_applies.map Event.pre_apply ∧
      callbacks b = []) := by
  have htr := apply_worker_trace en s h
  refine ⟨htr, ?_, apply_worker_world en s h, ?_⟩
  · rw [htr, List.drop_left]
    cases hq : s.queued_applies <;> cases en <;>
      simp [callbacks, callbacks_append]
  · intro a b hab
    rw [htr, List.drop_left] at hab
    cases hq : s.queued_applies with
    | nil =>
      have hmem : Event.dispc_mgr_go ∈ a ++ Event.dispc_mgr_go :: b := by simp
      rw [← hab, hq] at hmem
      simp at hmem
    | cons x n =>
      cases en
      · have hmem : Event.dispc_mgr_go ∈ a ++ Event.dispc_mgr_go :: b := by simp
        rw [← hab, hq] at hmem
        simp at hmem
      · rw [hq] at hab
        have e : (Event.dispc_runtime_get :: s.pending_applies.map Event.post_apply
            ++ (x :: n).map Event.pre_apply
            ++ (if (x :: n : List Req) = [] then []
                else if true = true then [Event.omap_irq_register, Event.dispc_mgr_go]
                else [Event.queue_work false])
            ++ [Event.dispc_runtime_put])
            = (Event.dispc_runtime_get :: s.pending_applies.map Event.post_apply
                ++ (x :: n).map Event.pre_apply ++ [Event.omap_irq_register])
              ++ Event.dispc_mgr_go :: [Event.dispc_runtime_put] := by simp
        rw [e] at hab
        have hna : Event.dispc_mgr_go ∉ (Event.dispc_runtime_get ::
            s.pending_applies.map Event.post_apply
            ++ (x :: n).map Event.pre_apply ++ [Event.omap_irq_register]) := by simp
        have hsplit := List.append_eq_append_iff.1 hab
        rcases hsplit with ⟨c, hc1, hc2⟩ | ⟨c, hc1, hc2⟩
        · cases c with
          | nil =>
            simp only [List.nil_append, List.cons.injEq, true_and] at hc2
            simp only [List.append_nil] at hc1
            subst hc1 hc2
            simp [callbacks, callbacks_append]
          | cons y c =>
            simp only [List.cons_append, List.cons.injEq] at hc2
            obtain ⟨rfl, hc2⟩ := hc2
            have : Event.dispc_mgr_go ∈ [Event.dispc_runtime_put] := by
              rw [hc2]; simp
            simp at this
        · cases c with
          | nil =>
            simp only [List.nil_append] at hc2
            simp only [List.append_nil] at hc1
            cases hc2
            subst hc1
            simp [callbacks, callbacks_append]
          | cons y c =>
            simp only [List.cons_append, List.cons.injEq] at hc2
            obtain ⟨rfl, _⟩ := hc2
            exact absurd (by rw [hc1]; simp) hna

/-- C20 at a concrete state: request 2 in flight, requests 1 and 3 queued,
the GO completed. -/
theorem worker_batch_order_witness :
    (omap_crtc_apply (omap_crtc_apply_irq false busy_crtc) 3).2.go_bit_set = false ∧
    callbacks ((apply_worker true
        (omap_crtc_apply (omap_crtc_apply_irq false busy_crtc) 3).2).trace.drop
        (omap_crtc_apply (omap_crtc_apply_irq false busy_crtc) 3).2.trace.length)
      = (omap_crtc_apply (omap_crtc_apply_irq false busy_crtc) 3).2.pending_applies.map
          Event.post_apply
        ++ (omap_crtc_apply (omap_crtc_apply_irq false busy_crtc) 3).2.queued_applies.map
          Event.pre_apply ∧
    (omap_crtc_apply (omap_crtc_apply_irq false busy_crtc) 3).2.pending_applies = [2] ∧
    (omap_crtc_apply (omap_crtc_apply_irq false busy_crtc) 3).2.queued_applies = [1, 3] :=
  ⟨by decide, (worker_batch_order true _ (by decide)).2.1, by decide, by decide⟩

/-! ## Enabling and disabling the channel -/

/-- C14, as the claim states it, fails: on an HDMI output whose channel is
already enabled, `set_enabled(crtc, true)` calls `dispc_mgr_enable`. -/
theorem set_enabled_hdmi_counterexample :
    hdmi_env.output_type = hdmi_env.OMAP_DISPLAY_TYPE_HDMI ∧
    hdmi_env.is_enabled = true ∧
    (set_enabled hdmi_env true idle_crtc).trace = [Event.dispc_mgr_enable 0 true false] ∧
    Event.dispc_mgr_enable 0 true false ∈ (set_enabled hdmi_env true idle_crtc).trace := by
  decide

/-- C14, amended: when the output type is not HDMI and
`dispc_mgr_is_enabled(channel)` already equals the requested value,
`set_enabled` returns the state it was given: no `dispc_mgr_enable`, no wait
initialised or performed, `ignore_digit_sync_lost` unchanged.  When the output
type is HDMI, `set_enabled` calls `dispc_mgr_enable(channel, enable)` once
whatever the channel state, makes no other call and changes no field. -/
theorem set_enabled_in_target_state (e : set_enabled_env) (enable : Bool)
    (s : omap_crtc W) :
    (e.output_type ≠ e.OMAP_DISPLAY_TYPE_HDMI → e.is_enabled = enable →
      set_enabled e enable s = s) ∧
    (e.output_type = e.OMAP_DISPLAY_TYPE_HDMI →
      set_enabled e enable s
        = { s with trace := s.trace
              ++ [Event.dispc_mgr_enable s.channel enable s.ignore_digit_sync_lost] }) := by
  constructor
  · intro h1 h2
    simp [set_enabled, h1, h2]
  · intro h1
    simp [set_enabled, h1, dispc_mgr_enable]

/-- C14 amended, at concrete inputs: disabling the already disabled panel
channel, and enabling the HDMI output. -/
theorem set_enabled_in_target_state_witness :
    set_enabled panel_env false idle_crtc = idle_crtc ∧
    set_enabled hdmi_env true idle_crtc
      = { idle_crtc with trace := idle_crtc.trace
            ++ [Event.dispc_mgr_enable idle_crtc.channel true
                  idle_crtc.ignore_digit_sync_lost] } :=
  ⟨(set_enabled_in_target_state panel_env false idle_crtc).1 (by decide) rfl,
    (set_enabled_in_target_state hdmi_env true idle_crtc).2 rfl⟩

/-- C15: when the output type is not HDMI and the channel is not in the
requested state, the calls of `set_enabled` are one `omap_irq_wait_init`, then
one `dispc_mgr_enable(channel, enable)`, then one `omap_irq_wait` on that wait
with `msecs_to_jiffies(100)`, followed by the error report when the wait
timed out.  The wait is for 1 vsync irq when enabling, for 1 frame-done irq
when disabling a channel whose frame-done irq is non-zero, and for 2 vsync
irqs when disabling a channel whose frame-done irq is zero.  At
`dispc_mgr_enable` and at the wait `ignore_digit_sync_lost` is set on the
DIGIT channel and has its value at entry on every other channel. -/
theorem set_enabled_transition (e : set_enabled_env) (enable : Bool) (s : omap_crtc W)
    (h1 : e.output_type ≠ e.OMAP_DISPLAY_TYPE_HDMI) (h2 : e.is_enabled ≠ enable) :
    (enable = true →
      (set_enabled e enable s).trace
        = s.trace ++ [Event.omap_irq_wait_init e.vsync_irq 1,
            Event.dispc_mgr_enable s.channel true
              (decide (s.channel = e.OMAP_DSS_CHANNEL_DIGIT) || s.ignore_digit_sync_lost),
            Event.omap_irq_wait e.vsync_irq 1 100
              (decide (s.channel = e.OMAP_DSS_CHANNEL_DIGIT) || s.ignore_digit_sync_lost)]
          ++ (if e.wait_ret ≠ 0 then [Event.dev_err_timeout true] else [])) ∧
    (enable = false → e.framedone_irq ≠ 0 →
      (set_enabled e enable s).trace
        = s.trace ++ [Event.omap_irq_wait_init e.framedone_irq 1,
            Event.dispc_mgr_enable s.channel false
              (decide (s.channel = e.OMAP_DSS_CHANNEL_DIGIT) || s.ignore_digit_sync_lost),
            Event.omap_irq_wait e.framedone_irq 1 100
              (decide (s.channel = e.OMAP_DSS_CHANNEL_DIGIT) || s.ignore_digit_sync_lost)]
          ++ (if e.wait_ret ≠ 0 then [Event.dev_err_timeout false] else [])) ∧
    (enable = false → e.framedone_irq = 0 →
      (set_enabled e enable s).trace
        = s.trace ++ [Event.omap_irq_wait_init e.vsync_irq 2,
            Event.dispc_mgr_enable s.channel false
              (decide (s.channel = e.OMAP_DSS_CHANNEL_DIGIT) || s.ignore_digit_sync_lost),
            Event.omap_irq_wait e.vsync_irq 2 100
              (decide (s.channel = e.OMAP_DSS_CHANNEL_DIGIT) || s.ignore_digit_sync_lost)]
          ++ (if e.wait_ret ≠ 0 then [Event.dev_err_timeout false] else [])) := by
  refine ⟨?_, ?_, ?_⟩
  · intro he
    subst he
    by_cases hd : s.channel = e.OMAP_DSS_CHANNEL_DIGIT <;>
      by_cases hr : e.wait_ret = 0 <;>
      simp [set_enabled, h1, h2, hd, hr, omap_irq_wait_init, omap_irq_wait,
        dispc_mgr_enable, dev_err_timeout]
  · intro he hf
    subst he
    by_cases hd : s.channel = e.OMAP_DSS_CHANNEL_DIGIT <;>
      by_cases hr : e.wait_ret = 0 <;>
      simp [set_enabled, h1, h2, hd, hr, hf, omap_irq_wait_init, omap_irq_wait,
        dispc_mgr_enable, dev_err_timeout]
  · intro he hf
    subst he
    by_cases hd : s.channel = e.OMAP_DSS_CHANNEL_DIGIT <;>
      by_cases hr : e.wait_ret = 0 <;>
      simp [set_enabled, h1, h2, hd, hr, hf, omap_irq_wait_init, omap_irq_wait,
        dispc_mgr_enable, dev_err_timeout]

/-- C15 at a concrete input: enabling the disabled panel channel. -/
theorem set_enabled_transition_witness :
    (set_enabled panel_env true idle_crtc).trace
      = idle_crtc.trace ++ [Event.omap_irq_wait_init panel_env.vsync_irq 1,
          Event.dispc_mgr_enable idle_crtc.channel true
            (decide (idle_crtc.channel = panel_env.OMAP_DSS_CHANNEL_DIGIT)
              || idle_crtc.ignore_digit_sync_lost),
          Event.omap_irq_wait panel_env.vsync_irq 1 100
            (decide (idle_crtc.channel = panel_env.OMAP_DSS_CHANNEL_DIGIT)
              || idle_crtc.ignore_digit_sync_lost)]
        ++ (if panel_env.wait_ret ≠ 0 then [Event.dev_err_timeout true] else []) :=
  (set_enabled_transition panel_env true idle_crtc (by decide) (by decide)).1 rfl

/-- C16: for every environment, request and state, `set_enabled` with a wait
that timed out (`omap_irq_wait` returned `r ≠ 0`) returns the state that it
returns with a successful wait, except that on the transition path the call
trace has the error report appended; all other calls and every other field
are the same.  The function returns `void`, so nothing reaches the caller. -/
theorem set_enabled_timeout_tolerated (e : set_enabled_env) (enable : Bool)
    (s : omap_crtc W) (r : Int) (hr : r ≠ 0) :
    set_enabled { e with wait_ret := r } enable s
      = { set_enabled { e with wait_ret := 0 } enable s with
          trace := (set_enabled { e with wait_ret := 0 } enable s).trace
            ++ (if e.output_type ≠ e.OMAP_DISPLAY_TYPE_HDMI ∧ e.is_enabled ≠ enable
                then [Event.dev_err_timeout enable] else []) } ∧
    (∀ en2, Event.dev_err_timeout en2 ∉
      (set_enabled { e with wait_ret := 0 } enable s).trace.drop s.trace.length) := by
  by_cases h1 : e.output_type = e.OMAP_DISPLAY_TYPE_HDMI
  · simp [set_enabled, h1, dispc_mgr_enable]
  · by_cases h2 : e.is_enabled = enable
    · simp [set_enabled, h1, h2]
    · by_cases hd : s.channel = e.OMAP_DSS_CHANNEL_DIGIT <;>
        by_cases hf : e.framedone_irq = 0 <;> cases enable <;>
        simp [set_enabled, h1, h2, hd, hr, hf, omap_irq_wait_init, omap_irq_wait,
          dispc_mgr_enable, dev_err_timeout]

/-- C16 at a concrete input: enabling the disabled panel channel with a wait
that returns -1. -/
theorem set_enabled_timeout_tolerated_witness :
    set_enabled { panel_env with wait_ret := -1 } true idle_crtc
      = { set_enabled { panel_env with wait_ret := 0 } true idle_crtc with
          trace := (set_enabled { panel_env with wait_ret := 0 } true idle_crtc).trace
            ++ (if panel_env.output_type ≠ panel_env.OMAP_DISPLAY_TYPE_HDMI ∧
                  panel_env.is_enabled ≠ true
                then [Event.dev_err_timeout true] else []) } :=
  (set_enabled_timeout_tolerated panel_env true idle_crtc (-1) (by decide)).1

/-! ## Flushing -/

/-- C18, as the claim states it, fails: with both lists empty and a page flip
pending (`old_fb` not `NULL`), `omap_crtc_work_pending` returns true. -/
theorem work_pending_counterexample :
    ({ idle_crtc with old_fb := some 1 } : omap_crtc (Nat × Nat)).queued_applies = [] ∧
    ({ idle_crtc with old_fb := some 1 } : omap_crtc (Nat × Nat)).pending_applies = [] ∧
    omap_crtc_work_pending ({ idle_crtc with old_fb := some 1 } : omap_crtc (Nat × Nat))
      = true := by
  decide

/-- C18, amended: `omap_crtc_work_pending` returns false exactly when
`queued_applies` and `pending_applies` are both empty and no page flip is
pending (`event` and `old_fb` are both `NULL`). -/
theorem work_pending_iff (s : omap_crtc W) :
    omap_crtc_work_pending s = false ↔
      s.queued_applies = [] ∧ s.pending_applies = [] ∧ s.event = none ∧ s.old_fb = none := by
  cases hq : s.queued_applies <;> cases hp : s.pending_applies <;>
    cases he : s.event <;> cases ho : s.old_fb <;>
    simp [omap_crtc_work_pending, hq, hp, he, ho]

/-! ## More on the worker -/

/-- C21: after a worker run entered with `go_bit_set` clear, `pending_applies`
is the `queued_applies` of entry, in the same order (the requests that were in
flight are gone), `queued_applies` is empty, the `queued` flag of every moved
request is clear and the flag of every other request is as it was. -/
theorem worker_transfer (en : Bool) (s : omap_crtc W) (h : s.go_bit_set = false) :
    (apply_worker en s).pending_applies = s.queued_applies ∧
    (apply_worker en s).queued_applies = [] ∧
    (∀ r, r ∈ s.queued_applies → ((apply_worker en s).applies r).queued = false) ∧
    (∀ r, r ∉ s.queued_applies →
      ((apply_worker en s).applies r).queued = (s.applies r).queued) := by
  refine ⟨apply_worker_pending_applies en s h, apply_worker_queued_applies en s h, ?_, ?_⟩
  · intro r hr
    rw [apply_worker_flag en s r h]; simp [hr]
  · intro r hr
    rw [apply_worker_flag en s r h]; simp [hr]

/-- C21 at a concrete state: request 2 in flight, requests 1 and 3 queued. -/
theorem worker_transfer_witness :
    (omap_crtc_apply (omap_crtc_apply_irq false busy_crtc) 3).2.queued_applies = [1, 3] ∧
    (apply_worker true (omap_crtc_apply (omap_crtc_apply_irq false busy_crtc) 3).2).pending_applies
      = (omap_crtc_apply (omap_crtc_apply_irq false busy_crtc) 3).2.queued_applies ∧
    (apply_worker true (omap_crtc_apply (omap_crtc_apply_irq false busy_crtc) 3).2).queued_applies
      = [] ∧
    ((apply_worker true (omap_crtc_apply (omap_crtc_apply_irq false busy_crtc) 3).2).applies
      3).queued = false :=
  ⟨by decide,
   (worker_transfer true (omap_crtc_apply (omap_crtc_apply_irq false busy_crtc) 3).2
      (by decide)).1,
   (worker_transfer true (omap_crtc_apply (omap_crtc_apply_irq false busy_crtc) 3).2
      (by decide)).2.1,
   (worker_transfer true (omap_crtc_apply (omap_crtc_apply_irq false busy_crtc) 3).2
      (by decide)).2.2.1 3 (by decide)⟩

/-- C22: a worker run calls `dispc_mgr_go` exactly when it is entered with
`go_bit_set` clear, a non-empty `queued_applies` and an enabled channel.  In
that case it calls `omap_irq_register` and then `dispc_mgr_go`, once each, and
`go_bit_set` is set and `apply_irq` registered when it returns.  In every
other case `go_bit_set` has at return the value it had at entry.  When
`queued_applies` is empty at entry the run calls neither `dispc_mgr_go` nor
`queue_work`. -/
theorem worker_go_iff (en : Bool) (s : omap_crtc W) :
    (Event.dispc_mgr_go ∈ (apply_worker en s).trace.drop s.trace.length ↔
      s.go_bit_set = false ∧ s.queued_applies ≠ [] ∧ en = true) ∧
    (s.go_bit_set = false ∧ s.queued_applies ≠ [] ∧ en = true →
      ((apply_worker en s).trace.drop s.trace.length).count Event.dispc_mgr_go = 1 ∧
      ((apply_worker en s).trace.drop s.trace.length).count Event.omap_irq_register = 1 ∧
      Precedes Event.omap_irq_register Event.dispc_mgr_go
        ((apply_worker en s).trace.drop s.trace.length) ∧
      (apply_worker en s).go_bit_set = true ∧
      (apply_worker en s).apply_irq_registered = true) ∧
    (¬ (s.go_bit_set = false ∧ s.queued_applies ≠ [] ∧ en = true) →
      (apply_worker en s).go_bit_set = s.go_bit_set) ∧
    (s.queued_applies = [] →
      Event.dispc_mgr_go ∉ (apply_worker en s).trace.drop s.trace.length ∧
      (∀ b, Event.queue_work b ∉ (apply_worker en s).trace.drop s.trace.length) ∧
      (apply_worker en s).apply_work_pending = s.apply_work_pending) := by
  cases hg : s.go_bit_set
  · have htr := apply_worker_trace en s hg
    have hgo := apply_worker_go_bit_set en s hg
    have hreg := apply_worker_apply_irq_registered en s hg
    have hwp := apply_worker_apply_work_pending en s hg
    rw [htr, List.drop_left, hgo, hreg, hwp]
    cases hq : s.queued_applies with
    | nil => cases en <;> simp
    | cons x n =>
      cases en
      · simp
      · refine ⟨by simp, fun _ => ⟨?_, ?_, ?_, by simp, by simp⟩, by simp, by simp⟩
        · simp [List.count_cons, List.count_append]
        · have c1 : ∀ l : List Req,
              List.count Event.omap_irq_register (l.map Event.post_apply) = 0 :=
            fun l => List.count_eq_zero.2 (by simp)
          have c2 : ∀ l : List Req,
              List.count Event.omap_irq_register (l.map Event.pre_apply) = 0 :=
            fun l => List.count_eq_zero.2 (by simp)
          simp [List.count_cons, List.count_append, c1, c2]
        · simp only [List.cons_ne_nil, if_false, if_true]
          have e : Event.dispc_runtime_get :: s.pending_applies.map Event.post_apply
              ++ (x :: n).map Event.pre_apply
              ++ [Event.omap_irq_register, Event.dispc_mgr_go] ++ [Event.dispc_runtime_put]
              = (Event.dispc_runtime_get :: s.pending_applies.map Event.post_apply
                  ++ (x :: n).map Event.pre_apply ++ [Event.omap_irq_register])
                ++ [Event.dispc_mgr_go, Event.dispc_runtime_put] := by simp
          rw [e]
          exact precedes_append_of_mem _ _ _ _ (precedes_of_not_mem _ _ _ (by simp)) (by simp)
  · rw [apply_worker_busy en s hg]
    simp [hg]

/-- C22 at a concrete state: request 1 queued on the idle crtc, channel
enabled. -/
theorem worker_go_iff_witness :
    (run idle_crtc [Step.submit 1]).go_bit_set = false ∧
    (run idle_crtc [Step.submit 1]).queued_applies ≠ [] ∧
    ((apply_worker true (run idle_crtc [Step.submit 1])).trace.drop
      (run idle_crtc [Step.submit 1]).trace.length).count Event.dispc_mgr_go = 1 ∧
    (apply_worker true (run idle_crtc [Step.submit 1])).go_bit_set = true :=
  ⟨by decide, by decide,
   ((worker_go_iff true (run idle_crtc [Step.submit 1])).2.1
      ⟨by decide, by decide, rfl⟩).1,
   ((worker_go_iff true (run idle_crtc [Step.submit 1])).2.1
      ⟨by decide, by decide, rfl⟩).2.2.2.1⟩

/-- C26: from a state with both lists empty, after every sequence of submit,
worker and interrupt steps (a worker step consumes the pending bit of
`apply_work`; worker steps taken while the work is not scheduled are covered
as well): when `queued_applies` or `pending_applies` is non-empty, the worker
is scheduled or `go_bit_set` is set. -/
theorem no_stuck_work (s0 : omap_crtc W) (steps : List Step)
    (h0 : s0.pending_applies = [] ∧ s0.queued_applies = []) :
    (run s0 steps).queued_applies ≠ [] ∨ (run s0 steps).pending_applies ≠ [] →
      (run s0 steps).apply_work_pending = true ∨ (run s0 steps).go_bit_set = true :=
  run_induction
    (fun t : omap_crtc W => t.queued_applies ≠ [] ∨ t.pending_applies ≠ [] →
      t.apply_work_pending = true ∨ t.go_bit_set = true)
    (fun _ => True) (fun t st hI _ => not_stuck_step t st hI) steps s0
    (by intro h; rw [h0.1, h0.2] at h; simp at h) (fun _ _ => trivial)

/-- C26 at a concrete run: a request is submitted behind an outstanding GO,
where the submission does not schedule the worker. -/
theorem no_stuck_work_witness :
    (run idle_crtc [Step.submit 1, Step.worker true, Step.submit 2]).queued_applies ≠ [] ∧
    (run idle_crtc [Step.submit 1, Step.worker true, Step.submit 2]).apply_work_pending
      = false ∧
    ((run idle_crtc [Step.submit 1, Step.worker true, Step.submit 2]).apply_work_pending
        = true ∨
      (run idle_crtc [Step.submit 1, Step.worker true, Step.submit 2]).go_bit_set = true) :=
  ⟨by decide, by decide,
   no_stuck_work idle_crtc [Step.submit 1, Step.worker true, Step.submit 2] ⟨rfl, rfl⟩
      (Or.inl (by decide))⟩

/-- C27: from a state with `go_bit_set` clear, after every sequence of submit,
worker and interrupt steps, a set `go_bit_set` implies that `pending_applies`
is non-empty and `apply_irq` is registered; and over further steps during
which `go_bit_set` stays set, `pending_applies` does not change. -/
theorem go_handshake (s0 : omap_crtc W) (steps : List Step)
    (h0 : s0.go_bit_set = false) :
    ((run s0 steps).go_bit_set = true →
      (run s0 steps).pending_applies ≠ [] ∧ (run s0 steps).apply_irq_registered = true) ∧
    (∀ q, (∀ q1 q2, q = q1 ++ q2 → q2 ≠ [] → (run s0 (steps ++ q1)).go_bit_set = true) →
      (run s0 (steps ++ q)).pending_applies = (run s0 steps).pending_applies) := by
  constructor
  · exact run_induction
      (fun t : omap_crtc W => t.go_bit_set = true →
        t.pending_applies ≠ [] ∧ t.apply_irq_registered = true)
      (fun _ => True) (fun t st hJ _ => go_handshake_step t st hJ) steps s0
      (by intro h; rw [h0] at h; cases h) (fun _ _ => trivial)
  · intro q hq
    rw [run_append]
    apply pending_frozen_run
    intro q1 q2 e hq2
    have := hq q1 q2 e hq2
    rwa [run_append] at this

/-- C27 at a concrete run: a GO is outstanding; a submission, a worker run
and a premature interrupt follow. -/
theorem go_handshake_witness :
    (run idle_crtc [Step.submit 1, Step.worker true]).go_bit_set = true ∧
    (run idle_crtc [Step.submit 1, Step.worker true]).pending_applies ≠ [] ∧
    (run idle_crtc [Step.submit 1, Step.worker true]).apply_irq_registered = true ∧
    (run idle_crtc ([Step.submit 1, Step.worker true]
        ++ [Step.submit 2, Step.worker true, Step.irq true])).pending_applies
      = (run idle_crtc [Step.submit 1, Step.worker true]).pending_applies :=
  ⟨by decide,
   ((go_handshake idle_crtc [Step.submit 1, Step.worker true] rfl).1 (by decide)).1,
   ((go_handshake idle_crtc [Step.submit 1, Step.worker true] rfl).1 (by decide)).2,
   (go_handshake idle_crtc [Step.submit 1, Step.worker true] rfl).2
      [Step.submit 2, Step.worker true, Step.irq true]
      (by
        intro q1 q2 e hq2
        have h3 := outstanding_stable q1 (run idle_crtc [Step.submit 1, Step.worker true])
          (by decide)
          (by
            intro st hst
            have hmem : st ∈ [Step.submit 2, Step.worker true, Step.irq true] := by
              rw [e]; exact List.mem_append_left _ hst
            intro hh
            subst hh
            revert hmem
            decide)
        rw [run_append]
        exact h3.1)⟩

/-- C28: for every state and every answer of `dispc_mgr_go_busy`,
`omap_crtc_apply_irq` returns the state it was given with at most
`go_bit_set`, the registration of `apply_irq`, the pending bit of `apply_work`
and the call trace changed; it calls no callback, the lists, the request
objects and the callers' context are unchanged, and `go_bit_set` is never
changed from clear to set. -/
theorem apply_irq_frame (go_busy : Bool) (s : omap_crtc W) :
    omap_crtc_apply_irq go_busy s
      = { s with go_bit_set := (omap_crtc_apply_irq go_busy s).go_bit_set,
                 apply_irq_registered := (omap_crtc_apply_irq go_busy s).apply_irq_registered,
                 apply_work_pending := (omap_crtc_apply_irq go_busy s).apply_work_pending,
                 trace := (omap_crtc_apply_irq go_busy s).trace } ∧
    callbacks ((omap_crtc_apply_irq go_busy s).trace.drop s.trace.length) = [] ∧
    (omap_crtc_apply_irq go_busy s).queued_applies = s.queued_applies ∧
    (omap_crtc_apply_irq go_busy s).pending_applies = s.pending_applies ∧
    (omap_crtc_apply_irq go_busy s).applies = s.applies ∧
    (omap_crtc_apply_irq go_busy s).world = s.world ∧
    ((omap_crtc_apply_irq go_busy s).go_bit_set = true → s.go_bit_set = true) := by
  cases s with
  | mk ch en fu g p q ig ap reg wp ev fb w tr =>
    cases g <;> cases go_busy <;>
      simp [omap_crtc_apply_irq, queue_work, omap_irq_unregister, callbacks]

/-! ## The sync-lost flag -/

/-- C23: when `set_enabled` performs a transition (output not HDMI, channel
not in the requested state) on the DIGIT channel, `ignore_digit_sync_lost` is
set when `dispc_mgr_enable` is issued and when the wait starts, whatever its
value at entry, and is clear when `set_enabled` returns, whether or not the
wait timed out.  On a transition on every other channel the flag has its value
at entry at `dispc_mgr_enable`, at the wait and at return.  On the HDMI path
the flag has its value at entry at `dispc_mgr_enable` and at return; and when
the channel is already in the requested state no call is made and the flag is
left alone. -/
theorem sync_lost_flag (e : set_enabled_env) (enable : Bool) (s : omap_crtc W) :
    (e.output_type ≠ e.OMAP_DISPLAY_TYPE_HDMI → e.is_enabled ≠ enable →
      s.channel = e.OMAP_DSS_CHANNEL_DIGIT →
      (set_enabled e enable s).trace
        = s.trace ++ [Event.omap_irq_wait_init
              (if enable = true then e.vsync_irq
                else if e.framedone_irq ≠ 0 then e.framedone_irq else e.vsync_irq)
              (if enable = true then 1 else if e.framedone_irq ≠ 0 then 1 else 2),
            Event.dispc_mgr_enable s.channel enable true,
            Event.omap_irq_wait
              (if enable = true then e.vsync_irq
                else if e.framedone_irq ≠ 0 then e.framedone_irq else e.vsync_irq)
              (if enable = true then 1 else if e.framedone_irq ≠ 0 then 1 else 2)
              100 true]
          ++ (if e.wait_ret ≠ 0 then [Event.dev_err_timeout enable] else []) ∧
      (set_enabled e enable s).ignore_digit_sync_lost = false) ∧
    (e.output_type ≠ e.OMAP_DISPLAY_TYPE_HDMI → e.is_enabled ≠ enable →
      s.channel ≠ e.OMAP_DSS_CHANNEL_DIGIT →
      (set_enabled e enable s).trace
        = s.trace ++ [Event.omap_irq_wait_init
              (if enable = true then e.vsync_irq
                else if e.framedone_irq ≠ 0 then e.framedone_irq else e.vsync_irq)
              (if enable = true then 1 else if e.framedone_irq ≠ 0 then 1 else 2),
            Event.dispc_mgr_enable s.channel enable s.ignore_digit_sync_lost,
            Event.omap_irq_wait
              (if enable = true then e.vsync_irq
                else if e.framedone_irq ≠ 0 then e.framedone_irq else e.vsync_irq)
              (if enable = true then 1 else if e.framedone_irq ≠ 0 then 1 else 2)
              100 s.ignore_digit_sync_lost]
          ++ (if e.wait_ret ≠ 0 then [Event.dev_err_timeout enable] else []) ∧
      (set_enabled e enable s).ignore_digit_sync_lost = s.ignore_digit_sync_lost) ∧
    (e.output_type = e.OMAP_DISPLAY_TYPE_HDMI →
      (set_enabled e enable s).trace
        = s.trace ++ [Event.dispc_mgr_enable s.channel enable s.ignore_digit_sync_lost] ∧
      (set_enabled e enable s).ignore_digit_sync_lost = s.ignore_digit_sync_lost) ∧
    (e.output_type ≠ e.OMAP_DISPLAY_TYPE_HDMI → e.is_enabled = enable →
      (set_enabled e enable s).trace = s.trace ∧
      (set_enabled e enable s).ignore_digit_sync_lost = s.ignore_digit_sync_lost) := by
  refine ⟨?_, ?_, ?_, ?_⟩
  · intro h1 h2 hd
    by_cases hf : e.framedone_irq = 0 <;> by_cases hr : e.wait_ret = 0 <;>
      cases enable <;>
      simp [set_enabled, h1, h2, hd, hr, hf, omap_irq_wait_init, omap_irq_wait,
        dispc_mgr_enable, dev_err_timeout]
  · intro h1 h2 hd
    by_cases hf : e.framedone_irq = 0 <;> by_cases hr : e.wait_ret = 0 <;>
      cases enable <;>
      simp [set_enabled, h1, h2, hd, hr, hf, omap_irq_wait_init, omap_irq_wait,
        dispc_mgr_enable, dev_err_timeout]
  · intro h1
    simp [set_enabled, h1, dispc_mgr_enable]
  · intro h1 h2
    simp [set_enabled, h1, h2]

/-- C23 at a concrete input: enabling the TV output on the DIGIT channel, with
the flag clear at entry and a wait that times out. -/
theorem sync_lost_flag_witness :
    digit_crtc.ignore_digit_sync_lost = false ∧
    (set_enabled digit_env true digit_crtc).trace
      = digit_crtc.trace ++ [Event.omap_irq_wait_init digit_env.vsync_irq 1,
          Event.dispc_mgr_enable digit_crtc.channel true true,
          Event.omap_irq_wait digit_env.vsync_irq 1 100 true]
        ++ [Event.dev_err_timeout true] ∧
    (set_enabled digit_env true digit_crtc).ignore_digit_sync_lost = false :=
  ⟨rfl, (sync_lost_flag digit_env true digit_crtc).1 (by decide) (by decide) rfl⟩

/-- C28 at the crtc with a GO outstanding: the completing interrupt clears
`go_bit_set` and leaves both lists alone. -/
theorem apply_irq_frame_witness :
    (omap_crtc_apply_irq false busy_crtc).go_bit_set = false ∧
    (omap_crtc_apply_irq false busy_crtc).queued_applies = busy_crtc.queued_applies ∧
    (omap_crtc_apply_irq false busy_crtc).pending_applies = busy_crtc.pending_applies ∧
    ((omap_crtc_apply_irq true busy_crtc).go_bit_set = true → busy_crtc.go_bit_set = true) :=
  ⟨by decide, (apply_irq_frame false busy_crtc).2.2.1, (apply_irq_frame false busy_crtc).2.2.2.1,
    (apply_irq_frame true busy_crtc).2.2.2.2.2.2⟩

end OmapCrtc

namespace Omap8250

/-! ## The RX FIFO error run -/

/-- While the run counter is at most the threshold, a call that sees the error
only counts. -/
theorem rx_fifo_error_counts (k : kernel_consts) (iir lsr : Nat)
    (herr : (iir &&& UART_IIR_IT_TYPE_MASK) = k.UART_IIR_RLSI ∧
      (lsr &&& k.UART_LSR_FIFOE) ≠ 0)
    (n : Nat) (hn : n ≤ 101) (p : uart_8250_port) (h0 : p.rx_fifo_error_run = 0) :
    Nat.iterate (omap8250_rx_fifo_error_recover k iir lsr) n p
      = { p with rx_fifo_error_run := (n : Int) } := by
  induction n with
  | zero =>
    cases p
    simp only [Function.iterate_zero, id_eq] at *
    simp [h0]
  | succ n ih =>
    rw [Function.iterate_succ_apply', ih (by omega)]
    have hle : ¬ ((n : Int) > OMAP_UART_RLSI_THRESHOLD) := by
      unfold OMAP_UART_RLSI_THRESHOLD; omega
    simp [omap8250_rx_fifo_error_recover, herr, hle]

/-- C24, the code at the failing input: from `rx_fifo_error_run = 0`, after
100 and after 101 consecutive calls that see an RLSI interrupt with FIFOE set
the counter is 100 and 101 and nothing was written; the 102nd call reports,
writes `UART_FCR` with `UART_FCR_CLEAR_RCVR` and zeroes the counter. -/
theorem rx_fifo_reset_on_102nd :
    (Nat.iterate (omap8250_rx_fifo_error_recover sample_consts 0x06 0x80) 100
      sample_port).rx_fifo_error_run = 100 ∧
    (Nat.iterate (omap8250_rx_fifo_error_recover sample_consts 0x06 0x80) 100
      sample_port).calls = [] ∧
    (Nat.iterate (omap8250_rx_fifo_error_recover sample_consts 0x06 0x80) 101
      sample_port).rx_fifo_error_run = 101 ∧
    (Nat.iterate (omap8250_rx_fifo_error_recover sample_consts 0x06 0x80) 101
      sample_port).calls = [] ∧
    (Nat.iterate (omap8250_rx_fifo_error_recover sample_consts 0x06 0x80) 102
      sample_port).rx_fifo_error_run = 0 ∧
    (Nat.iterate (omap8250_rx_fifo_error_recover sample_consts 0x06 0x80) 102
      sample_port).calls
      = [Call.dev_err_rx_fifo_errors, Call.serial_port_out_FCR 0x53] := by
  have herr : (0x06 &&& UART_IIR_IT_TYPE_MASK) = sample_consts.UART_IIR_RLSI ∧
      (0x80 &&& sample_consts.UART_LSR_FIFOE) ≠ 0 := by decide
  have h100 := rx_fifo_error_counts sample_consts 0x06 0x80 herr 100 (by omega)
    sample_port rfl
  have h101 := rx_fifo_error_counts sample_consts 0x06 0x80 herr 101 (by omega)
    sample_port rfl
  have h102 : Nat.iterate (omap8250_rx_fifo_error_recover sample_consts 0x06 0x80) 102
      sample_port
      = omap8250_rx_fifo_error_recover sample_consts 0x06 0x80
          (Nat.iterate (omap8250_rx_fifo_error_recover sample_consts 0x06 0x80) 101
            sample_port) := Function.iterate_succ_apply' _ 101 _
  rw [h102, h101, h100]
  decide

/-! ## The divisor -/

/-- C29, the code at the failing input: with `uartclk = 48000000` the core is
asked for a rate between 45 and 3692307; at `baud = 45` the divisors are 82051
(13x) and 66667 (16x), the 13x divisor 82051 is selected, it exceeds `0xffff`,
and `priv->quot` receives its low 16 bits, 16515. -/
theorem divisor_exceeds_16_bits :
    48000000 / 16 / 0xffff ≤ 45 ∧ 45 ≤ 48000000 / 13 ∧
    DIV_ROUND_CLOSEST 48000000 (13 * 45) = 82051 ∧
    DIV_ROUND_CLOSEST 48000000 (16 * 45) = 66667 ∧
    select_divisor sample_port.uartclk 45 = some (82051, true) ∧
    0xffff < 82051 ∧
    (omap_8250_get_divisor sample_consts false 0 45 sample_port).map
        (fun p => (p.quot, p.mdr1))
      = some (16515, sample_consts.UART_OMAP_MDR1_13X_MODE) := by
  decide


/-! ## The RX ring -/

/-- One round of the copy loop: one `tty_insert_flip_string` call, the sum of
the two counters grows by 48 modulo `2^32`, the position advances by 48 and
wraps at `rx_size`. -/
theorem rx_copy_round_spec (ret : Int) (p : uart_8250_port) :
    ((rx_copy_round ret p).icount_rx + (rx_copy_round ret p).icount_buf_overrun)
        % 4294967296
      = (p.icount_rx + p.icount_buf_overrun + 48) % 4294967296 ∧
    (rx_copy_round ret p).rx_size = p.rx_size ∧
    (rx_copy_round ret p).calls = p.calls ++ [Call.tty_insert_flip_string p.rx_pos 48] ∧
    (rx_copy_round ret p).rx_pos
      = (if p.rx_pos + 48 = p.rx_size then 0 else p.rx_pos + 48) := by
  unfold rx_copy_round RX_TRIGGER
  by_cases h : p.rx_pos + 48 = p.rx_size
  · simp only [h, if_true]
    refine ⟨?_, trivial, trivial, trivial⟩
    omega
  · simp only [h, if_false]
    refine ⟨?_, trivial, trivial, trivial⟩
    omega

/-- The distance from `a` forward to `b` on a ring of size `m`. -/
theorem ring_distance (a b m : Int) (ha : 0 ≤ a) (ham : a < m) (hb : 0 ≤ b) (hbm : b < m) :
    (b - a) % m = if a ≤ b then b - a else b - a + m := by
  split
  · exact Int.emod_eq_of_lt (by omega) (by omega)
  · rw [← Int.add_emod_self]
    exact Int.emod_eq_of_lt (by omega) (by omega)

/-- The copy loop on a well-formed ring, `n` rounds away from `pos`: it needs
exactly `n` rounds. -/
theorem rx_copy_loop_spec (rets : Nat → Int) (pos : Int) (hpa : (48 : Int) ∣ pos)
    (hp0 : 0 ≤ pos) (n : Nat) :
    ∀ (i : Nat) (p : uart_8250_port), (48 : Int) ∣ p.rx_size → (48 : Int) ∣ p.rx_pos →
      0 ≤ p.rx_pos → p.rx_pos < p.rx_size → pos < p.rx_size →
      (if p.rx_pos ≤ pos then pos - p.rx_pos else pos - p.rx_pos + p.rx_size) = 48 * (n : Int) →
      (∀ fuel, n < fuel → ∃ q, rx_copy_loop rets pos fuel i p = some q ∧
        q.rx_pos = pos ∧ q.rx_size = p.rx_size ∧
        q.calls.length = p.calls.length + n ∧
        (q.icount_rx + q.icount_buf_overrun) % 4294967296
          = (p.icount_rx + p.icount_buf_overrun + 48 * (n : Int)) % 4294967296) ∧
      (∀ fuel, fuel ≤ n → rx_copy_loop rets pos fuel i p = none) := by
  induction n with
  | zero =>
    intro i p hs hpp h0 h1 h2 hd
    have heq : p.rx_pos = pos := by
      split at hd <;> omega
    constructor
    · intro fuel hf
      obtain ⟨f, rfl⟩ : ∃ f, fuel = f + 1 := ⟨fuel - 1, by omega⟩
      refine ⟨p, ?_, heq, rfl, by simp, by simp⟩
      simp [rx_copy_loop, heq]
    · intro fuel hf
      have : fuel = 0 := by omega
      subst this
      rfl
  | succ n ih =>
    intro i p hs hpp h0 h1 h2 hd
    have hne : p.rx_pos ≠ pos := by
      intro h
      rw [h] at hd
      simp at hd
      omega
    obtain ⟨r1, r2, r3, r4⟩ := rx_copy_round_spec (rets i) p
    have hinv : (48 : Int) ∣ (rx_copy_round (rets i) p).rx_pos ∧
        0 ≤ (rx_copy_round (rets i) p).rx_pos ∧
        (rx_copy_round (rets i) p).rx_pos < p.rx_size ∧
        (if (rx_copy_round (rets i) p).rx_pos ≤ pos then
            pos - (rx_copy_round (rets i) p).rx_pos
          else pos - (rx_copy_round (rets i) p).rx_pos + p.rx_size) = 48 * (n : Int) := by
      rw [r4]
      by_cases hw : p.rx_pos + 48 = p.rx_size
      · simp only [hw, if_true]
        refine ⟨by omega, by omega, by omega, ?_⟩
        split at hd
        · omega
        · simp only [hp0, if_true]
          push_cast at hd
          omega
      · simp only [hw, if_false]
        refine ⟨by omega, by omega, by omega, ?_⟩
        push_cast at hd
        split at hd
        · have : p.rx_pos + 48 ≤ pos := by omega
          simp only [this, if_true]
          omega
        · have : ¬ (p.rx_pos + 48 ≤ pos) := by omega
          simp only [this, if_false]
          omega
    obtain ⟨ia, ib⟩ := ih (i + 1) (rx_copy_round (rets i) p) (by rw [r2]; exact hs) hinv.1
      hinv.2.1 (by rw [r2]; exact hinv.2.2.1) (by rw [r2]; exact h2)
      (by rw [r2]; exact hinv.2.2.2)
    constructor
    · intro fuel hf
      obtain ⟨f, rfl⟩ : ∃ f, fuel = f + 1 := ⟨fuel - 1, by omega⟩
      obtain ⟨q, q1, q2, q3, q4, q5⟩ := ia f (by omega)
      refine ⟨q, ?_, q2, by rw [q3, r2], ?_, ?_⟩
      · simp only [rx_copy_loop, hne, ne_eq, not_false_eq_true, if_true]
        exact q1
      · rw [q4, r3]; simp; omega
      · rw [q5]
        push_cast
        omega
    · intro fuel hf
      cases fuel with
      | zero => rfl
      | succ f =>
        simp only [rx_copy_loop, hne, ne_eq, not_false_eq_true, if_true]
        exact ib f (by omega)

/-- The target position on a well-formed ring. -/
theorem rx_copy_target_spec (residue : Int) (p : uart_8250_port)
    (hsz : 0 < p.rx_size) (hal : (48 : Int) ∣ p.rx_size)
    (hr0 : 0 ≤ residue) (hr1 : residue ≤ p.rx_size) :
    (48 : Int) ∣ rx_copy_target residue p ∧ 0 ≤ rx_copy_target residue p ∧
    rx_copy_target residue p < p.rx_size := by
  unfold rx_copy_target dma_rx_pos RX_TRIGGER
  by_cases hres : residue = 0
  · simp [hres, hsz]
  · simp only [hres, if_false]
    have hnn : 0 ≤ p.rx_size - residue := by omega
    rw [Int.tmod_eq_emod hnn (by decide)]
    split <;> omega


/-- The number of rounds to the target is a multiple-of-48 distance below the
ring size. -/
theorem rx_rounds_spec (p : uart_8250_port) (t : Int)
    (hal : (48 : Int) ∣ p.rx_size) (hpal : (48 : Int) ∣ p.rx_pos)
    (hp0 : 0 ≤ p.rx_pos) (hp1 : p.rx_pos < p.rx_size)
    (hta : (48 : Int) ∣ t) (ht0 : 0 ≤ t) (ht1 : t < p.rx_size) :
    (if p.rx_pos ≤ t then t - p.rx_pos else t - p.rx_pos + p.rx_size)
      = 48 * ((((t - p.rx_pos) % p.rx_size / 48).toNat : Nat) : Int) ∧
    ((t - p.rx_pos) % p.rx_size / 48).toNat < (p.rx_size / 48).toNat := by
  have hd := ring_distance p.rx_pos t p.rx_size hp0 hp1 ht0 ht1
  generalize (t - p.rx_pos) % p.rx_size = d at hd
  rw [← hd]
  split at hd <;> omega

/-- The copy loop from any state that has the ring position and size of `p`. -/
theorem rx_copy_loop_returns (residue : Int) (rets : Nat → Int) (p p1 : uart_8250_port)
    (hsz : 0 < p.rx_size) (hal : (48 : Int) ∣ p.rx_size) (hpal : (48 : Int) ∣ p.rx_pos)
    (hp0 : 0 ≤ p.rx_pos) (hp1 : p.rx_pos < p.rx_size)
    (hr0 : 0 ≤ residue) (hr1 : residue ≤ p.rx_size)
    (e1 : p1.rx_pos = p.rx_pos) (e2 : p1.rx_size = p.rx_size) (fuel : Nat)
    (hf : ((rx_copy_target residue p - p.rx_pos) % p.rx_size / 48).toNat < fuel) :
    ∃ q, rx_copy_loop rets (rx_copy_target residue p) fuel 0 p1 = some q ∧
      q.rx_pos = rx_copy_target residue p ∧ q.rx_size = p.rx_size ∧
      q.calls.length = p1.calls.length
        + ((rx_copy_target residue p - p.rx_pos) % p.rx_size / 48).toNat ∧
      (q.icount_rx + q.icount_buf_overrun) % 4294967296
        = (p1.icount_rx + p1.icount_buf_overrun
            + 48 * ((((rx_copy_target residue p - p.rx_pos) % p.rx_size / 48).toNat : Nat)
                : Int)) % 4294967296 := by
  obtain ⟨ta, t0, t1⟩ := rx_copy_target_spec residue p hsz hal hr0 hr1
  obtain ⟨hd, _⟩ := rx_rounds_spec p _ hal hpal hp0 hp1 ta t0 t1
  obtain ⟨ha, _⟩ := rx_copy_loop_spec rets (rx_copy_target residue p) ta t0
    ((rx_copy_target residue p - p.rx_pos) % p.rx_size / 48).toNat 0 p1
    (by rw [e2]; exact hal) (by rw [e1]; exact hpal) (by rw [e1]; exact hp0)
    (by rw [e1, e2]; exact hp1) (by rw [e2]; exact t1) (by rw [e1, e2]; exact hd)
  obtain ⟨q, q1, q2, q3, q4, q5⟩ := ha fuel hf
  exact ⟨q, q1, q2, by rw [q3, e2], q4, q5⟩

/-- The whole of `dma_rx_copy_buffer` on a well-formed ring returns once the
fuel exceeds the number of rounds; the ring size is kept and, with a channel,
the position is the target. -/
theorem dma_rx_copy_buffer_returns (residue : Int) (rets : Nat → Int)
    (update_wdog : Bool) (p : uart_8250_port)
    (hsz : 0 < p.rx_size) (hal : (48 : Int) ∣ p.rx_size) (hpal : (48 : Int) ∣ p.rx_pos)
    (hp0 : 0 ≤ p.rx_pos) (hp1 : p.rx_pos < p.rx_size)
    (hr0 : 0 ≤ residue) (hr1 : residue ≤ p.rx_size) (fuel : Nat)
    (hf : ((rx_copy_target residue p - p.rx_pos) % p.rx_size / 48).toNat < fuel) :
    ∃ q, dma_rx_copy_buffer residue rets fuel update_wdog p = some q ∧
      q.rx_size = p.rx_size ∧ (p.rxchan = true → q.rx_pos = rx_copy_target residue p) := by
  have hloop : ∀ p1 : uart_8250_port, p1.rx_pos = p.rx_pos → p1.rx_size = p.rx_size →
      (rx_copy_loop rets (rx_copy_target residue p) fuel 0 p1 ≠ none) ∧
      ∀ q, rx_copy_loop rets (rx_copy_target residue p) fuel 0 p1 = some q →
        q.rx_pos = rx_copy_target residue p ∧ q.rx_size = p.rx_size := by
    intro p1 e1 e2
    obtain ⟨q, q1, q2, q3, _⟩ := rx_copy_loop_returns residue rets p p1 hsz hal hpal hp0 hp1
      hr0 hr1 e1 e2 fuel hf
    refine ⟨by rw [q1]; simp, ?_⟩
    intro q' hq'
    rw [q1] at hq'
    cases hq'
    exact ⟨q2, q3⟩
  have key : ∀ p0 : uart_8250_port, p0.rx_pos = p.rx_pos → p0.rx_size = p.rx_size →
      p0.rxchan = p.rxchan → rx_copy_target residue p0 = rx_copy_target residue p →
      ∃ q, dma_rx_copy_buffer residue rets fuel false p0 = some q ∧
        q.rx_size = p.rx_size ∧ (p.rxchan = true → q.rx_pos = rx_copy_target residue p) := by
    intro p0 e1 e2 e3 e4
    unfold dma_rx_copy_buffer
    simp only [Bool.false_eq_true, if_false]
    rw [e4]
    split
    · rename_i hc
      exact ⟨p0, rfl, e2, fun h => by rw [← e3, hc] at h; cases h⟩
    · split
      · rename_i ht
        exact ⟨p0, rfl, e2, fun _ => ht.symm⟩
      · split
        · rename_i heq
          refine absurd heq (hloop _ ?_ ?_).1
          · split
            · exact e1
            · split <;> exact e1
          · split
            · exact e2
            · split <;> exact e2
        · rename_i p2 heq
          have hres := (hloop _ ?_ ?_).2 p2 heq
          · exact ⟨_, rfl, hres.2, fun _ => hres.1⟩
          · split
            · exact e1
            · split <;> exact e1
          · split
            · exact e2
            · split <;> exact e2
  cases update_wdog with
  | false => exact key p rfl rfl rfl rfl
  | true =>
    have e : dma_rx_copy_buffer residue rets fuel true p
        = dma_rx_copy_buffer residue rets fuel false (update_rx_dma_wd p) := by
      unfold dma_rx_copy_buffer
      simp
    rw [e]
    apply key
    · unfold update_rx_dma_wd; split <;> rfl
    · unfold update_rx_dma_wd; split <;> rfl
    · unfold update_rx_dma_wd; split <;> rfl
    · have hs : (update_rx_dma_wd p).rx_size = p.rx_size := by
        unfold update_rx_dma_wd; split <;> rfl
      unfold rx_copy_target dma_rx_pos
      rw [hs]

/-- C30: on a ring whose size is a positive multiple of 48, with `rx_pos` a
multiple of 48 in `0 .. rx_size - 1` and a DMA residue in `0 .. rx_size`: the
target position (`dma_rx_pos` rounded down to a multiple of 48) is a multiple
of 48 in `0 .. rx_size - 1`; the copy loop ends after exactly
`((pos - rx_pos) mod rx_size) / 48` rounds (one more test of the loop
condition returns, no fewer does) with `rx_pos` at the target, one
`tty_insert_flip_string` call per round; each round adds 48 to
`icount.rx + icount.buf_overrun` in 32-bit arithmetic, whatever
`tty_insert_flip_string` returns; and `dma_rx_copy_buffer` as a whole returns
with `rx_pos` at the target when the channel is there. -/
theorem rx_copy_terminates (residue : Int) (rets : Nat → Int) (p : uart_8250_port)
    (hsz : 0 < p.rx_size) (hal : (48 : Int) ∣ p.rx_size) (hpal : (48 : Int) ∣ p.rx_pos)
    (hp0 : 0 ≤ p.rx_pos) (hp1 : p.rx_pos < p.rx_size)
    (hr0 : 0 ≤ residue) (hr1 : residue ≤ p.rx_size) :
    ((48 : Int) ∣ rx_copy_target residue p ∧ 0 ≤ rx_copy_target residue p ∧
      rx_copy_target residue p < p.rx_size) ∧
    (∀ fuel, ((rx_copy_target residue p - p.rx_pos) % p.rx_size / 48).toNat < fuel →
      ∃ q, rx_copy_loop rets (rx_copy_target residue p) fuel 0 p = some q ∧
        q.rx_pos = rx_copy_target residue p ∧ q.rx_size = p.rx_size ∧
        q.calls.length = p.calls.length
          + ((rx_copy_target residue p - p.rx_pos) % p.rx_size / 48).toNat ∧
        (q.icount_rx + q.icount_buf_overrun) % 4294967296
          = (p.icount_rx + p.icount_buf_overrun
              + 48 * ((((rx_copy_target residue p - p.rx_pos) % p.rx_size / 48).toNat : Nat)
                  : Int)) % 4294967296) ∧
    (∀ fuel, fuel ≤ ((rx_copy_target residue p - p.rx_pos) % p.rx_size / 48).toNat →
      rx_copy_loop rets (rx_copy_target residue p) fuel 0 p = none) ∧
    (∀ ret q, ((rx_copy_round ret q).icount_rx + (rx_copy_round ret q).icount_buf_overrun)
        % 4294967296 = (q.icount_rx + q.icount_buf_overrun + 48) % 4294967296) ∧
    (p.rxchan = true → ∀ fuel update_wdog,
      ((rx_copy_target residue p - p.rx_pos) % p.rx_size / 48).toNat < fuel →
      ∃ q, dma_rx_copy_buffer residue rets fuel update_wdog p = some q ∧
        q.rx_pos = rx_copy_target residue p) := by
  obtain ⟨ta, t0, t1⟩ := rx_copy_target_spec residue p hsz hal hr0 hr1
  obtain ⟨hd, _⟩ := rx_rounds_spec p _ hal hpal hp0 hp1 ta t0 t1
  refine ⟨⟨ta, t0, t1⟩, ?_, ?_, fun ret q => (rx_copy_round_spec ret q).1, ?_⟩
  · intro fuel hf
    exact rx_copy_loop_returns residue rets p p hsz hal hpal hp0 hp1 hr0 hr1 rfl rfl fuel hf
  · exact (rx_copy_loop_spec rets (rx_copy_target residue p) ta t0 _ 0 p hal hpal hp0 hp1
      t1 hd).2
  · intro hc fuel wd hf
    obtain ⟨q, q1, _, q3⟩ := dma_rx_copy_buffer_returns residue rets wd p hsz hal hpal hp0
      hp1 hr0 hr1 fuel hf
    exact ⟨q, q1, q3 hc⟩


/-- C30 at a concrete ring: 28848 bytes, `rx_pos` at 28800, residue 28748, so
the DMA is at 100 and the target is 96: three rounds, across the wrap. -/
theorem rx_copy_terminates_witness :
    rx_copy_target 28748 ring_port = 96 ∧
    ((rx_copy_target 28748 ring_port - ring_port.rx_pos) % ring_port.rx_size / 48).toNat = 3 ∧
    (∃ q, rx_copy_loop (fun _ => 40) (rx_copy_target 28748 ring_port) 4 0 ring_port = some q ∧
      q.rx_pos = rx_copy_target 28748 ring_port ∧ q.rx_size = ring_port.rx_size ∧
      q.calls.length = ring_port.calls.length
        + ((rx_copy_target 28748 ring_port - ring_port.rx_pos) % ring_port.rx_size / 48).toNat ∧
      (q.icount_rx + q.icount_buf_overrun) % 4294967296
        = (ring_port.icount_rx + ring_port.icount_buf_overrun
            + 48 * ((((rx_copy_target 28748 ring_port - ring_port.rx_pos)
                % ring_port.rx_size / 48).toNat : Nat) : Int)) % 4294967296) ∧
    rx_copy_loop (fun _ => 40) (rx_copy_target 28748 ring_port) 3 0 ring_port = none :=
  ⟨by decide, by decide,
   (rx_copy_terminates 28748 (fun _ => 40) ring_port (by decide) ⟨601, by decide⟩
      ⟨600, by decide⟩ (by decide) (by decide) (by decide) (by decide)).2.1 4 (by decide),
   (rx_copy_terminates 28748 (fun _ => 40) ring_port (by decide) ⟨601, by decide⟩
      ⟨600, by decide⟩ (by decide) (by decide) (by decide) (by decide)).2.2.1 3 (by decide)⟩

/-! ## The size of the RX ring -/

theorem update_rx_dma_wd_rx_size (p : uart_8250_port) :
    (update_rx_dma_wd p).rx_size = p.rx_size := by
  unfold update_rx_dma_wd; split <;> rfl

theorem omap_8250_rx_dma_setup_rx_size (k : kernel_consts) (desc_ok : Bool)
    (p : uart_8250_port) :
    (omap_8250_rx_dma_setup k desc_ok p).2.rx_size = p.rx_size := by
  unfold omap_8250_rx_dma_setup
  cases desc_ok
  · rfl
  · simp only [Bool.true_eq_false, if_false]
    exact update_rx_dma_wd_rx_size _

theorem realloc_rx_dma_buf_out_rx_size (k : kernel_consts) (a : dma_answers) (rx_size : Int)
    (do_dma_setup : Bool) (p : uart_8250_port) :
    (realloc_rx_dma_buf_out k a rx_size do_dma_setup p).rx_size = p.rx_size := by
  unfold realloc_rx_dma_buf_out
  cases do_dma_setup
  · simp only [Bool.false_eq_true, if_false]
    exact update_rx_dma_wd_rx_size _
  · simp only [if_true]
    exact omap_8250_rx_dma_setup_rx_size k a.desc_ok _

theorem rx_period_align_gt (n : Nat) : ((n : Nat) : Int) < rx_period_align (n : Int) := by
  unfold rx_period_align RX_TRIGGER
  rw [Int.tmod_eq_emod (by omega) (by decide)]
  omega

/-- C25, as the claim states it, fails: at 3000000 baud the ring of 28848
bytes has to grow to 375024 bytes; when `dma_alloc_coherent` returns `NULL`,
`realloc_rx_dma_buf` returns with `dma->rx_size` still 28848, less than
`baud / 8`. -/
theorem realloc_alloc_failure_counterexample :
    (realloc_rx_dma_buf sample_consts alloc_fails 0 3000000 sample_port).map
        (fun q => q.rx_size) = some 28848 ∧
    rx_period_align ((3000000 / 8 : Nat) : Int) = 375024 ∧
    (28848 : Int) < ((3000000 / 8 : Nat) : Int) := by
  decide

/-- C25, amended: for every baud rate and every prior ring, when
`realloc_rx_dma_buf` returns, `dma->rx_size` is never smaller than before; it
is at least `rx_period_align(baud / 8)`, hence at least `baud / 8`, provided
the ring was already that large or `dma_alloc_coherent` returned a buffer;
when the allocation fails the size is unchanged.  The function returns at once
when the ring is large enough or the allocation fails, and on a well-formed
ring it returns whenever the fuel covers one lap of the tear-down copy. -/
theorem realloc_rx_size (k : kernel_consts) (a : dma_answers) (fuel : Nat) (baud : Nat)
    (p : uart_8250_port) :
    (∀ q, realloc_rx_dma_buf k a fuel baud p = some q →
      p.rx_size ≤ q.rx_size ∧
      (a.alloc.isSome = true ∨ rx_period_align ((baud / 8 : Nat) : Int) ≤ p.rx_size →
        rx_period_align ((baud / 8 : Nat) : Int) ≤ q.rx_size ∧
        ((baud / 8 : Nat) : Int) ≤ q.rx_size) ∧
      (a.alloc = none → q.rx_size = p.rx_size)) ∧
    (a.alloc = none ∨ rx_period_align ((baud / 8 : Nat) : Int) ≤ p.rx_size →
      ∃ q, realloc_rx_dma_buf k a fuel baud p = some q) ∧
    (0 < p.rx_size → (48 : Int) ∣ p.rx_size → (48 : Int) ∣ p.rx_pos → 0 ≤ p.rx_pos →
      p.rx_pos < p.rx_size → 0 ≤ a.residue → a.residue ≤ p.rx_size →
      (p.rx_size / 48).toNat ≤ fuel →
      ∃ q, realloc_rx_dma_buf k a fuel baud p = some q) := by
  have hgt := rx_period_align_gt (baud / 8)
  refine ⟨?_, ?_, ?_⟩
  · intro q hq
    unfold realloc_rx_dma_buf at hq
    by_cases hle : rx_period_align ((baud / 8 : Nat) : Int) ≤ p.rx_size
    · simp only [hle, if_true, Option.some.injEq] at hq
      have hs : q.rx_size = p.rx_size := by
        rw [← hq]; exact realloc_rx_dma_buf_out_rx_size _ _ _ _ _
      rw [hs]
      exact ⟨le_refl _, fun _ => ⟨hle, by omega⟩, fun _ => rfl⟩
    · simp only [hle, if_false] at hq
      cases halloc : a.alloc with
      | none =>
        rw [halloc] at hq
        simp only [Option.some.injEq] at hq
        have hs : q.rx_size = p.rx_size := by
          rw [← hq]; exact realloc_rx_dma_buf_out_rx_size _ _ _ _ _
        rw [hs]
        refine ⟨le_refl _, fun h => ?_, fun _ => rfl⟩
        rcases h with h | h
        · simp at h
        · exact absurd h hle
      | some pr =>
        obtain ⟨b, ad⟩ := pr
        rw [halloc] at hq
        simp only at hq
        split at hq
        · cases hq
        · simp only [Option.some.injEq] at hq
          have hs : q.rx_size = rx_period_align ((baud / 8 : Nat) : Int) := by
            rw [← hq]; exact realloc_rx_dma_buf_out_rx_size _ _ _ _ _
          rw [hs]
          refine ⟨by omega, fun _ => ⟨le_refl _, by omega⟩, fun h => by cases h⟩
  · intro h
    unfold realloc_rx_dma_buf
    by_cases hle : rx_period_align ((baud / 8 : Nat) : Int) ≤ p.rx_size
    · simp only [hle, if_true]
      exact ⟨_, rfl⟩
    · rcases h with h | h
      · simp only [hle, if_false, h]
        exact ⟨_, rfl⟩
      · exact absurd h hle
  · intro hsz hal hpal hp0 hp1 hr0 hr1 hf
    unfold realloc_rx_dma_buf
    by_cases hle : rx_period_align ((baud / 8 : Nat) : Int) ≤ p.rx_size
    · simp only [hle, if_true]
      exact ⟨_, rfl⟩
    · simp only [hle, if_false]
      cases halloc : a.alloc with
      | none => exact ⟨_, rfl⟩
      | some pr =>
        obtain ⟨b, ad⟩ := pr
        simp only
        obtain ⟨ta, t0, t1⟩ := rx_copy_target_spec a.residue p hsz hal hr0 hr1
        obtain ⟨_, hn⟩ := rx_rounds_spec p _ hal hpal hp0 hp1 ta t0 t1
        obtain ⟨q, q1, _⟩ := dma_rx_copy_buffer_returns a.residue a.rets false
          { p with calls := p.calls
              ++ [Call.dma_alloc_coherent (rx_period_align ((baud / 8 : Nat) : Int))]
              ++ [Call.dmaengine_pause] ++ [Call.hrtimer_cancel] }
          hsz hal hpal hp0 hp1 hr0 hr1 fuel (lt_of_lt_of_le hn hf)
        have ht : omap_8250_rx_dma_teardown a.residue a.rets fuel
            { p with calls := p.calls
                ++ [Call.dma_alloc_coherent (rx_period_align ((baud / 8 : Nat) : Int))] }
            = some { q with calls := q.calls ++ [Call.dmaengine_terminate_sync] } := by
          unfold omap_8250_rx_dma_teardown
          simp only [q1]
        rw [ht]
        exact ⟨_, rfl⟩


/-- C25 amended, at a concrete input: 3000000 baud on the sample ring with the
position at 28800, the allocation succeeds; the ring grows from 28848 to
375024 bytes. -/
theorem realloc_rx_size_witness :
    (realloc_rx_dma_buf sample_consts alloc_works 601 3000000 ring_port).map
        (fun q => q.rx_size) = some 375024 ∧
    ∃ q, realloc_rx_dma_buf sample_consts alloc_works 601 3000000 ring_port = some q ∧
      ring_port.rx_size ≤ q.rx_size ∧
      rx_period_align ((3000000 / 8 : Nat) : Int) ≤ q.rx_size ∧
      ((3000000 / 8 : Nat) : Int) ≤ q.rx_size :=
  ⟨by decide,
   Exists.elim
    ((realloc_rx_size sample_consts alloc_works 601 3000000 ring_port).2.2 (by decide)
      ⟨601, by decide⟩ ⟨600, by decide⟩ (by decide) (by decide) (by decide) (by decide)
      (by decide))
    (fun q hq =>
      ⟨q, hq, ((realloc_rx_size sample_consts alloc_works 601 3000000 ring_port).1 q hq).1,
        (((realloc_rx_size sample_consts alloc_works 601 3000000 ring_port).1 q hq).2.1
          (Or.inl rfl)).1,
        (((realloc_rx_size sample_consts alloc_works 601 3000000 ring_port).1 q hq).2.1
          (Or.inl rfl)).2⟩)⟩

end Omap8250
